import Mathlib

/-!
Verification of the `httpcore` async connection pool
(`src/httpcore/_async/connection_pool.py`), as a shallow embedding.

Modelling conventions:
* Machine time (`time.monotonic()`-style floats) is modelled by `ℚ`; only
  comparisons and addition of time values occur in the pool code.
* Python object identity for `AsyncHTTPConnection` objects is modelled by a
  numeric `id` field carried by every connection record; the pool's per-origin
  `Set` is a list whose membership test compares ids.
* The pool's mutable attributes form the `Pool` record.  The bounded semaphore
  created from `max_connections` (or the `NullSemaphore` when unset) is
  modelled by the `permitsUsed` counter: `acquire` succeeds while
  `permitsUsed < max_connections` and increments it, `release` decrements it.
  In this sequential model a full semaphore never receives a permit from a
  concurrent releaser, so an `acquire` with a finite timeout elapses and raises
  `PoolTimeout` (the semaphore is created with `exc_class=PoolTimeout`), and an
  `acquire` with no timeout blocks; both leave the pool untouched.
* `async` suspension and locking are collapsed: each pool method is a function
  from pool state to pool state (plus results), matching the source statement
  order.
-/

/-- The `ConnectionState` enum from `httpcore._async.base`. -/
inductive ConnectionState where
  | PENDING
  | ACTIVE
  | IDLE
  | READY
  | CLOSED
deriving DecidableEq

/-- `Origin = Tuple[bytes, bytes, int]` from `httpcore._types` (scheme, host, port). -/
abbrev Origin := String × String × Nat

/-- The view of an `AsyncHTTPConnection` that the pool reads and writes:
`origin`, `state`, `is_http11`, `is_http2`, `expires_at`, and the result of
`is_connection_dropped()` (modelled as the field `dropped`).  The `id` field
stands for Python object identity. -/
structure Conn where
  id : Nat
  origin : Origin
  state : ConnectionState
  is_http11 : Bool
  is_http2 : Bool
  expires_at : Option ℚ
  dropped : Bool
deriving DecidableEq

/-- `TimeoutDict = Mapping[str, Optional[float]]` from `httpcore._types`. -/
abbrev TimeoutDict := List (String × Option ℚ)

/-- `timeout.get(key, None)`. -/
def timeoutGet (t : TimeoutDict) (k : String) : Option ℚ :=
  match t.find? (fun e => decide (e.1 = k)) with
  | some e => e.2
  | none => none

/-- The mutable state of `AsyncConnectionPool` together with its (immutable)
configuration.  `connections` is the `Dict[Origin, Set[AsyncHTTPConnection]]`;
`permitsUsed` models the admission semaphore (see the file header). -/
structure Pool where
  connections : List (Origin × List Conn)
  permitsUsed : Nat
  maxConnections : Option Nat
  maxKeepalive : Option Nat
  keepaliveExpiry : Option ℚ
  http2 : Bool
  nextKeepaliveCheck : ℚ
deriving DecidableEq

/-- `self._connections.get(origin, set())`: the set stored for an origin key,
or the empty set.  Python dict keys are unique; on (unreachable) duplicate
keys this reads the first entry, consistently with the update operations. -/
def mapGet (m : List (Origin × List Conn)) (o : Origin) : List Conn :=
  match m.find? (fun e => decide (e.1 = o)) with
  | some e => e.2
  | none => []

/-- Membership of a connection in a set, by object identity. -/
def setMem (s : List Conn) (cid : Nat) : Bool :=
  s.any (fun c => decide (c.id = cid))

/-- `set.add`: a no-op when the object is already present. -/
def setAdd (s : List Conn) (c : Conn) : List Conn :=
  if setMem s c.id then s else c :: s

/-- `self._connections.setdefault(origin, set())` followed by
`self._connections[origin].add(connection)`. -/
def mapInsert (m : List (Origin × List Conn)) (o : Origin) (c : Conn) :
    List (Origin × List Conn) :=
  match m with
  | [] => [(o, [c])]
  | e :: rest =>
      if e.1 = o then (o, setAdd e.2 c) :: rest else e :: mapInsert rest o c

/-- `self._connections[origin].remove(connection)` followed by
`if not self._connections[origin]: del self._connections[origin]`. -/
def mapRemove (m : List (Origin × List Conn)) (o : Origin) (cid : Nat) :
    List (Origin × List Conn) :=
  match m with
  | [] => []
  | e :: rest =>
      if e.1 = o then
        (let s := e.2.filter (fun c => !decide (c.id = cid))
         if s = [] then rest else (o, s) :: rest)
      else e :: mapRemove rest o cid

/-- In-place mutation of a connection object: every stored reference with the
given identity observes the new field values. -/
def updateConn (m : List (Origin × List Conn)) (cid : Nat) (c2 : Conn) :
    List (Origin × List Conn) :=
  m.map (fun e => (e.1, e.2.map (fun c => if c.id = cid then c2 else c)))

/-- `self._get_all_connections()`: the union of all per-origin sets. -/
def get_all_connections (p : Pool) : List Conn :=
  (p.connections.map Prod.snd).flatten

/-- `self._connections_for_origin(origin)`: a fresh copy of the origin's set
(the scan in `_get_connection_from_pool` iterates this copy while the pool
itself is mutated). -/
def connections_for_origin (p : Pool) (o : Origin) : List Conn :=
  mapGet p.connections o

/-- `self._connection_semaphore.release()`: a no-op for the `NullSemaphore`
(`max_connections` unset), a permit release for the bounded semaphore. -/
def semRelease (p : Pool) : Pool :=
  match p.maxConnections with
  | none => p
  | some _ => { p with permitsUsed := p.permitsUsed - 1 }

/-- `AsyncConnectionPool._remove_from_pool`: if the connection is present in
its origin's set, release one semaphore permit, remove it, and delete the
origin key when the set becomes empty; otherwise do nothing. -/
def remove_from_pool (p : Pool) (c : Conn) : Pool :=
  if setMem (mapGet p.connections c.origin) c.id then
    { semRelease p with
        connections := mapRemove (semRelease p).connections c.origin c.id }
  else p

/-- Outcome of `self._connection_semaphore.acquire(timeout=...)` in the
sequential model: a permit, a `PoolTimeout` (finite timeout on a full
semaphore), or blocking forever (no timeout on a full semaphore). -/
inductive AcquireOutcome where
  | ok
  | poolTimeout
  | blocked
deriving DecidableEq

/-- `acquire(timeout)` on the admission semaphore (the `NullSemaphore` when
`max_connections` is unset always succeeds without touching any counter). -/
def semAcquire (p : Pool) (tmo : Option ℚ) : Pool × AcquireOutcome :=
  match p.maxConnections with
  | none => (p, AcquireOutcome.ok)
  | some m =>
      if p.permitsUsed < m then
        ({ p with permitsUsed := p.permitsUsed + 1 }, AcquireOutcome.ok)
      else
        match tmo with
        | some _ => (p, AcquireOutcome.poolTimeout)
        | none => (p, AcquireOutcome.blocked)

/-- `AsyncConnectionPool._add_to_pool`: acquire a permit with
`timeout.get("pool", None)`, then insert the connection into its origin's set
(creating the set if absent).  On a failed acquisition nothing is inserted. -/
def add_to_pool (p : Pool) (c : Conn) (t : TimeoutDict) : Pool × AcquireOutcome :=
  match semAcquire p (timeoutGet t "pool") with
  | (p1, AcquireOutcome.ok) =>
      ({ p1 with connections := mapInsert p1.connections c.origin c },
       AcquireOutcome.ok)
  | (p1, out) => (p1, out)

/-- Modelled from the spec: `AsyncHTTPConnection.mark_as_ready()` lives in
`connection.py`, which is not under `src/`.  Per the spec it moves the
connection into the `READY` state ("selected for an imminent request"). -/
def mark_as_ready (c : Conn) : Conn :=
  { c with state := ConnectionState.READY }

/-- The reuse connection as returned by `_get_connection_from_pool`:
`mark_as_ready()` has been called on it and its `expires_at` cleared. -/
def readied (c : Conn) : Conn :=
  { mark_as_ready c with expires_at := none }

/-- The loop-carried variables of the scan in `_get_connection_from_pool`:
`seen_http11`, `pending_connection`, `reuse_connection`,
`connections_to_close` (kept in scan order; `_remove_from_pool` is invoked on
each element as it is added, which the caller of `connScan` replays). -/
structure ScanAcc where
  seen_http11 : Bool
  pending : Option Conn
  reuse : Option Conn
  toClose : List Conn
deriving DecidableEq

/-- One iteration of the scan loop in `_get_connection_from_pool`. -/
def scanStep (acc : ScanAcc) (c : Conn) : ScanAcc :=
  let acc1 := if c.is_http11 then { acc with seen_http11 := true } else acc
  if c.state = ConnectionState.IDLE then
    (if c.dropped then { acc1 with toClose := acc1.toClose ++ [c] }
     else { acc1 with reuse := some c })
  else if c.state = ConnectionState.ACTIVE ∧ c.is_http2 = true then
    { acc1 with reuse := some c }
  else if c.state = ConnectionState.PENDING then
    { acc1 with pending := some c }
  else acc1

/-- The full scan of `_get_connection_from_pool` over a copy of the origin's
set. -/
def connScan (cs : List Conn) : ScanAcc :=
  cs.foldl scanStep ⟨false, none, none, []⟩

/-- Reuse candidates of the scan: an `IDLE` connection that is not dropped, or
an `ACTIVE` HTTP/2 connection. -/
def reuseCandB (c : Conn) : Bool :=
  (decide (c.state = ConnectionState.IDLE) && !c.dropped) ||
    (decide (c.state = ConnectionState.ACTIVE) && c.is_http2)

/-- `AsyncConnectionPool._get_connection_from_pool`: scan the origin's set
(removing dropped `IDLE` connections as they are found), then either ready a
reuse candidate, share a `PENDING` connection (HTTP/2 enabled, no HTTP/1.1
seen), or return nothing.  The `aclose()` calls on the dropped connections are
external effects and are not part of the pool state. -/
def get_connection_from_pool (p : Pool) (o : Origin) : Pool × Option Conn :=
  let acc := connScan (connections_for_origin p o)
  let p1 := acc.toClose.foldl remove_from_pool p
  match acc.reuse with
  | some r =>
      ({ p1 with connections := updateConn p1.connections r.id (readied r) },
       some (readied r))
  | none =>
      match acc.pending with
      | some q =>
          if p.http2 && !acc.seen_http11 then (p1, some q) else (p1, none)
      | none => (p1, none)

/-- Look up the stored connection with a given identity. -/
def findConn (p : Pool) (cid : Nat) : Option Conn :=
  (get_all_connections p).find? (fun c => decide (c.id = cid))

/-- `connection.expires_at = now + self._keepalive_expiry` in
`_response_closed`: mutate the stored connection's `expires_at`. -/
def stampExpiry (p : Pool) (cid : Nat) (c : Conn) (e : ℚ) : Pool :=
  let c2 := { c with expires_at := some e }
  { p with connections := updateConn p.connections cid c2 }

/-- `AsyncConnectionPool._response_closed(connection)`, acting on the stored
connection with the given identity (the stream holds a reference to the very
object in the pool): `CLOSED` connections are removed; `IDLE` connections are
removed (and closed externally) if the keep-alive population exceeds
`max_keepalive`, else stamped with `expires_at = now + keepalive_expiry` when
an expiry is configured; other states are untouched. -/
def response_closed (p : Pool) (cid : Nat) (now : ℚ) : Pool :=
  match findConn p cid with
  | none => p
  | some c =>
      if c.state = ConnectionState.CLOSED then
        remove_from_pool p c
      else if c.state = ConnectionState.IDLE then
        (match p.maxKeepalive with
         | some mk =>
             if (get_all_connections p).length > mk then
               remove_from_pool p c
             else
               match p.keepaliveExpiry with
               | some ke => stampExpiry p cid c (now + ke)
               | none => p
         | none =>
             match p.keepaliveExpiry with
             | some ke => stampExpiry p cid c (now + ke)
             | none => p)
      else p

/-- The expiry test of `_keepalive_sweep`: state is `IDLE`, `expires_at` is
set, and `now > expires_at`. -/
def sweepExpired (now : ℚ) (c : Conn) : Bool :=
  decide (c.state = ConnectionState.IDLE) &&
    (match c.expires_at with
     | some e => decide (now > e)
     | none => false)

/-- `AsyncConnectionPool._keepalive_sweep`: `none` models the
`assert self._keepalive_expiry is not None` failing.  Otherwise: a no-op when
rate-limited, else advance `next_keepalive_check` and remove every expired
`IDLE` connection (their `aclose()` calls are external effects). -/
def keepalive_sweep (p : Pool) (now : ℚ) : Option Pool :=
  match p.keepaliveExpiry with
  | none => none
  | some _ =>
      if now < p.nextKeepaliveCheck then some p
      else
        let p1 := { p with nextKeepaliveCheck := now + 1 }
        some (((get_all_connections p).filter (sweepExpired now)).foldl
          remove_from_pool p1)

/-- Events recorded by `aclose`: `_remove_from_pool(connection)` calls and
`connection.aclose()` calls, by connection identity. -/
inductive CloseEv where
  | removed (cid : Nat)
  | closed (cid : Nat)
deriving DecidableEq

/-- `AsyncConnectionPool.aclose`: snapshot all connections, remove each from
the pool, then close each.  The second component is the trace of removal and
close calls in program order. -/
def pool_aclose (p : Pool) : Pool × List CloseEv :=
  let cs := get_all_connections p
  (cs.foldl remove_from_pool p,
   cs.map (fun c => CloseEv.removed c.id) ++ cs.map (fun c => CloseEv.closed c.id))

/-- Events observable from `ResponseByteStream.aclose`: the inner
`stream.aclose()` call and the pool callback `self.callback(self.connection)`. -/
inductive StreamEv where
  | innerClose
  | poolCallback (cid : Nat)
deriving DecidableEq

/-- A `try/finally` over trace-producing computations: the `finally` trace runs
after the body whether or not the body raised, and the body's error (if any)
is re-raised afterwards. -/
def tryFinallyRun (body : List StreamEv × Option Nat) (fin : List StreamEv) :
    List StreamEv × Option Nat :=
  (body.1 ++ fin, body.2)

/-- `ResponseByteStream.aclose` for a stream wrapping connection `cid`, whose
inner `stream.aclose()` outcome is `innerErr` (`none` = success, `some e` =
raised error `e`): close the inner stream, and in a `finally` block invoke the
pool callback `AsyncConnectionPool._response_closed` on the connection.  The
result is the pool after the callback, the event trace, and the error
surfaced to the caller. -/
def stream_aclose (p : Pool) (cid : Nat) (now : ℚ) (innerErr : Option Nat) :
    Pool × List StreamEv × Option Nat :=
  let r := tryFinallyRun ([StreamEv.innerClose], innerErr) [StreamEv.poolCallback cid]
  (response_closed p cid now, r)

/-- Modelled from the spec: construction of `AsyncHTTPConnection` (in
`connection.py`, not under `src/`).  A freshly constructed connection is in
state `PENDING` ("dialing/handshaking in progress") with no negotiated
protocol and no expiry. -/
def newConnection (o : Origin) (cid : Nat) : Conn :=
  ⟨cid, o, ConnectionState.PENDING, false, false, none, false⟩

/-- The observable outcome of `connection.request(...)`: success, the internal
`NewConnectionRequired` signal, or any other error (carried as an abstract
error value). -/
inductive ReqOutcome where
  | success
  | newConnectionRequired
  | failure (e : Nat)
deriving DecidableEq

/-- A connection-side mutation performed by `connection.request` (protocol
negotiation, state transitions): object identity and origin are immutable,
everything else may change. -/
def applyMut (c m : Conn) : Conn :=
  { m with id := c.id, origin := c.origin }

/-- Result of one iteration of the retry loop in
`AsyncConnectionPool.request`, carrying the pool state at that point:
a response was obtained, `NewConnectionRequired` was caught and the loop
restarts with no connection selected, `PoolTimeout` was raised out of
`_add_to_pool`, the permit acquisition blocked, some other request error `e`
propagates, or the loop's fuel ran out (the loop is still running). -/
inductive IterResult where
  | success (p : Pool) (c : Conn)
  | retry (p : Pool)
  | poolTimeout (p : Pool)
  | blockedR (p : Pool)
  | failed (p : Pool) (e : Nat)
  | exhausted (p : Pool)
deriving DecidableEq

/-- The pool state carried by an `IterResult`. -/
def IterResult.pool : IterResult → Pool
  | .success p _ => p
  | .retry p => p
  | .poolTimeout p => p
  | .blockedR p => p
  | .failed p _ => p
  | .exhausted p => p

/-- Result of the get-or-create section of `request` (under the connection
acquiry lock): a connection to use, or a failed admission. -/
inductive SelResult where
  | conn (p : Pool) (c : Conn)
  | timeout (p : Pool)
  | blockedS (p : Pool)
deriving DecidableEq

/-- The get-or-create section of `AsyncConnectionPool.request`: select from
the pool, or construct a new `PENDING` connection (with fresh identity
`newId`) and `_add_to_pool` it. -/
def selectPhase (p : Pool) (o : Origin) (newId : Nat) (t : TimeoutDict) :
    SelResult :=
  match (get_connection_from_pool p o).2 with
  | some c => SelResult.conn (get_connection_from_pool p o).1 c
  | none =>
      match (add_to_pool (get_connection_from_pool p o).1 (newConnection o newId) t).2 with
      | AcquireOutcome.ok =>
          SelResult.conn
            (add_to_pool (get_connection_from_pool p o).1 (newConnection o newId) t).1
            (newConnection o newId)
      | AcquireOutcome.poolTimeout =>
          SelResult.timeout
            (add_to_pool (get_connection_from_pool p o).1 (newConnection o newId) t).1
      | AcquireOutcome.blocked =>
          SelResult.blockedS
            (add_to_pool (get_connection_from_pool p o).1 (newConnection o newId) t).1

/-- `connection.request(...)` and the surrounding `try/except` of the retry
loop.  The oracle `out` gives the request's outcome and the connection's own
mutation; the mutation is visible through the pool's stored reference.  On
`NewConnectionRequired` the handler only sets the loop variable back to no
connection; on any other error the handler removes the connection from the
pool and re-raises the same error. -/
def dispatch (p : Pool) (c : Conn) (out : Conn → ReqOutcome × Conn) :
    IterResult :=
  let r := out c
  let c2 := applyMut c r.2
  let p2 := { p with connections := updateConn p.connections c.id c2 }
  match r.1 with
  | ReqOutcome.success => IterResult.success p2 c2
  | ReqOutcome.newConnectionRequired => IterResult.retry p2
  | ReqOutcome.failure e => IterResult.failed (remove_from_pool p2 c2) e

/-- One iteration of the `while connection is None` loop of
`AsyncConnectionPool.request`. -/
def requestIter (p : Pool) (o : Origin) (newId : Nat) (t : TimeoutDict)
    (out : Conn → ReqOutcome × Conn) : IterResult :=
  match selectPhase p o newId t with
  | SelResult.conn p1 c => dispatch p1 c out
  | SelResult.timeout p1 => IterResult.poolTimeout p1
  | SelResult.blockedS p1 => IterResult.blockedR p1

/-- The retry loop of `AsyncConnectionPool.request`, with fuel bounding the
number of iterations modelled (`exhausted` = the loop is still running).
`ids i` is the identity of the connection dialed in iteration `i`, and
`out i` the request oracle for iteration `i`. -/
def requestLoop (o : Origin) (t : TimeoutDict) (ids : Nat → Nat)
    (out : Nat → Conn → ReqOutcome × Conn) :
    Nat → Nat → Pool → IterResult
  | 0, _, p => IterResult.exhausted p
  | fuel + 1, i, p =>
      match requestIter p o (ids i) t (out i) with
      | IterResult.retry p1 => requestLoop o t ids out fuel (i + 1) p1
      | r => r

/-- `AsyncConnectionPool.request`: sweep expired keep-alive connections when
`keepalive_expiry` is configured, then run the retry loop. -/
def request_op (p : Pool) (o : Origin) (t : TimeoutDict) (ids : Nat → Nat)
    (out : Nat → Conn → ReqOutcome × Conn) (fuel : Nat) (now : ℚ) :
    IterResult :=
  match p.keepaliveExpiry with
  | some _ =>
      match keepalive_sweep p now with
      | some p1 => requestLoop o t ids out fuel 0 p1
      | none => requestLoop o t ids out fuel 0 p
  | none => requestLoop o t ids out fuel 0 p

/-- The pool operations: the public entry points of `AsyncConnectionPool`
(`request`, `aclose`), the internal mutators `_add_to_pool`,
`_remove_from_pool`, `_get_connection_from_pool`, `_response_closed`,
`_keepalive_sweep`, and connection-internal mutations (`connEvent`: the
connection object itself changes state, which the pool observes through its
stored reference). -/
inductive PoolOp where
  | add (c : Conn) (t : TimeoutDict)
  | remove (c : Conn)
  | getFrom (o : Origin)
  | respClosed (cid : Nat) (now : ℚ)
  | sweep (now : ℚ)
  | closeAll
  | connEvent (cid : Nat) (m : Conn)
  | req (o : Origin) (t : TimeoutDict) (ids : Nat → Nat)
      (out : Nat → Conn → ReqOutcome × Conn) (fuel : Nat) (now : ℚ)

/-- The effect of one pool operation on the pool state. -/
def applyOp (p : Pool) : PoolOp → Pool
  | PoolOp.add c t => (add_to_pool p c t).1
  | PoolOp.remove c => remove_from_pool p c
  | PoolOp.getFrom o => (get_connection_from_pool p o).1
  | PoolOp.respClosed cid now => response_closed p cid now
  | PoolOp.sweep now => (keepalive_sweep p now).getD p
  | PoolOp.closeAll => (pool_aclose p).1
  | PoolOp.connEvent cid m =>
      (match findConn p cid with
       | some c => { p with connections := updateConn p.connections cid (applyMut c m) }
       | none => p)
  | PoolOp.req o t ids out fuel now => (request_op p o t ids out fuel now).pool

/-- Run a sequence of pool operations. -/
def runOps (p : Pool) : List PoolOp → Pool
  | [] => p
  | op :: ops => runOps (applyOp p op) ops

/-- `AsyncConnectionPool.__init__`: an empty pool with the given
configuration. -/
def initPool (maxC maxK : Option Nat) (ke : Option ℚ) (h2 : Bool) : Pool :=
  ⟨[], 0, maxC, maxK, ke, h2, 0⟩

/-- The states reachable from an initial pool by pool operations. -/
def Reachable (p0 p : Pool) : Prop :=
  ∃ ops, runOps p0 ops = p

/-- The total number of connections held by the pool, across all origins. -/
def countAll (p : Pool) : Nat :=
  (get_all_connections p).length

/-- The connections of an origin map, across all entries. -/
def joinConns (m : List (Origin × List Conn)) : List Conn :=
  (m.map Prod.snd).flatten

/-- Python dict keys are unique: the representation invariant of the
association-list model of `self._connections`. -/
@[reducible] def KeysNodup (m : List (Origin × List Conn)) : Prop :=
  (m.map Prod.fst).Nodup

/-- Every connection is stored under its own origin
(`_add_to_pool` inserts under `connection.origin`). -/
@[reducible] def OriginsConsistent (m : List (Origin × List Conn)) : Prop :=
  ∀ e ∈ m, ∀ c ∈ e.2, c.origin = e.1

/-- Well-formedness of a pool state: unique dict keys, connections stored
under their own origin, and distinct object identities. -/
@[reducible] def PoolWF (p : Pool) : Prop :=
  KeysNodup p.connections ∧ OriginsConsistent p.connections ∧
    (List.map Conn.id (get_all_connections p)).Nodup

/-- The bounded-pool invariant behind claim C2: the admission semaphore holds
`max_connections = m` permits, at least one permit is in use per stored
connection, and no more than `m` permits are in use. -/
def BoundInv (m : Nat) (p : Pool) : Prop :=
  p.maxConnections = some m ∧ countAll p ≤ p.permitsUsed ∧ p.permitsUsed ≤ m

/-- Every origin key present in the map holds a non-empty set (claim C10). -/
@[reducible] def NonEmptyInv (p : Pool) : Prop :=
  ∀ e ∈ p.connections, e.2 ≠ []

/-- The spec's post-sweep freshness, as claimed: an `IDLE` connection "either
has no `expires_at` or `expires_at > now`". -/
def idleFreshStrict (now : ℚ) (c : Conn) : Bool :=
  match c.expires_at with
  | none => true
  | some e => decide (now < e)

/-- Post-sweep freshness as the code guarantees it: no `expires_at`, or
`expires_at ≥ now` (a connection with `expires_at = now` is not removed,
since the sweep removes only `now > expires_at`). -/
def idleFreshWeak (now : ℚ) (c : Conn) : Bool :=
  match c.expires_at with
  | none => true
  | some e => decide (now ≤ e)

/-- A sample origin for concrete evaluations. -/
def OW : Origin := ("http", "x", 80)

/-- A second sample origin. -/
def OW2 : Origin := ("https", "y", 443)

/-- A sample idle HTTP/1.1 connection with a pending expiry. -/
def CW1 : Conn := ⟨1, OW, ConnectionState.IDLE, true, false, some 3, false⟩

/-- A sample pending connection. -/
def CW2 : Conn := ⟨2, OW, ConnectionState.PENDING, false, false, none, false⟩

/-- A sample active HTTP/2 connection on the second origin. -/
def CW3 : Conn := ⟨3, OW2, ConnectionState.ACTIVE, false, true, none, false⟩

/-- A sample idle connection whose keep-alive expiry is exactly the sweep
time. -/
def CW5 : Conn := ⟨5, OW, ConnectionState.IDLE, true, false, some 5, false⟩

/-- A sample pool holding `CW1` with one admission permit in use. -/
def PW : Pool := ⟨[(OW, [CW1])], 1, some 2, none, some 1, false, 0⟩

/-- A sample pool whose admission semaphore is exhausted
(`max_connections = 1`, one permit in use). -/
def PW4 : Pool := ⟨[(OW, [CW1])], 1, some 1, none, none, false, 0⟩

/-- A sample pool holding the boundary-expiry connection `CW5`. -/
def PW5 : Pool := ⟨[(OW, [CW5])], 1, some 4, none, some 1, false, 0⟩

/-- A sample two-origin pool for shutdown. -/
def PW7 : Pool := ⟨[(OW, [CW1, CW2]), (OW2, [CW3])], 3, some 4, none, none, false, 0⟩

/-- An empty pool with no connection bound, used to exercise the request
retry loop. -/
def PW3 : Pool := ⟨[], 0, none, none, none, false, 0⟩

/-- A request oracle that always signals `NewConnectionRequired` and leaves
the connection unchanged. -/
def OutW (c : Conn) : ReqOutcome × Conn := (ReqOutcome.newConnectionRequired, c)

/-- A request oracle that always fails with error `7`, leaving the connection
unchanged. -/
def OutF (c : Conn) : ReqOutcome × Conn := (ReqOutcome.failure 7, c)

theorem semRelease_maxC (p : Pool) : (semRelease p).maxConnections = p.maxConnections := by
  unfold semRelease; split <;> rfl

theorem semRelease_maxK (p : Pool) : (semRelease p).maxKeepalive = p.maxKeepalive := by
  unfold semRelease; split <;> rfl

theorem semRelease_ke (p : Pool) : (semRelease p).keepaliveExpiry = p.keepaliveExpiry := by
  unfold semRelease; split <;> rfl

theorem semRelease_h2 (p : Pool) : (semRelease p).http2 = p.http2 := by
  unfold semRelease; split <;> rfl

theorem semRelease_next (p : Pool) : (semRelease p).nextKeepaliveCheck = p.nextKeepaliveCheck := by
  unfold semRelease; split <;> rfl

theorem remove_from_pool_maxC (p : Pool) (c : Conn) :
    (remove_from_pool p c).maxConnections = p.maxConnections := by
  unfold remove_from_pool
  split
  · exact semRelease_maxC p
  · rfl

theorem remove_from_pool_maxK (p : Pool) (c : Conn) :
    (remove_from_pool p c).maxKeepalive = p.maxKeepalive := by
  unfold remove_from_pool
  split
  · exact semRelease_maxK p
  · rfl

theorem remove_from_pool_ke (p : Pool) (c : Conn) :
    (remove_from_pool p c).keepaliveExpiry = p.keepaliveExpiry := by
  unfold remove_from_pool
  split
  · exact semRelease_ke p
  · rfl

theorem remove_from_pool_h2 (p : Pool) (c : Conn) :
    (remove_from_pool p c).http2 = p.http2 := by
  unfold remove_from_pool
  split
  · exact semRelease_h2 p
  · rfl

theorem remove_from_pool_next (p : Pool) (c : Conn) :
    (remove_from_pool p c).nextKeepaliveCheck = p.nextKeepaliveCheck := by
  unfold remove_from_pool
  split
  · exact semRelease_next p
  · rfl

theorem foldl_remove_maxC (cs : List Conn) (p : Pool) :
    (cs.foldl remove_from_pool p).maxConnections = p.maxConnections := by
  induction cs generalizing p with
  | nil => rfl
  | cons c cs ih => rw [List.foldl_cons, ih, remove_from_pool_maxC]

theorem foldl_remove_ke (cs : List Conn) (p : Pool) :
    (cs.foldl remove_from_pool p).keepaliveExpiry = p.keepaliveExpiry := by
  induction cs generalizing p with
  | nil => rfl
  | cons c cs ih => rw [List.foldl_cons, ih, remove_from_pool_ke]

theorem foldl_remove_next (cs : List Conn) (p : Pool) :
    (cs.foldl remove_from_pool p).nextKeepaliveCheck = p.nextKeepaliveCheck := by
  induction cs generalizing p with
  | nil => rfl
  | cons c cs ih => rw [List.foldl_cons, ih, remove_from_pool_next]

/-- C6: for every returned response body stream, `ResponseByteStream.aclose`
closes the inner stream first and then invokes the pool's `_response_closed`
callback on the stream's connection exactly once, in all cases (`innerErr`
ranges over success and every inner-close error): the callback still runs
when the inner close fails, and the inner-close error is surfaced to the
caller after the callback has run (the returned error accompanies the
completed trace, whose last event is the callback). -/
theorem stream_aclose_spec (p : Pool) (cid : Nat) (now : ℚ) (innerErr : Option Nat) :
    (stream_aclose p cid now innerErr).2.1 =
      [StreamEv.innerClose, StreamEv.poolCallback cid] ∧
    List.count (StreamEv.poolCallback cid) (stream_aclose p cid now innerErr).2.1 = 1 ∧
    (stream_aclose p cid now innerErr).2.2 = innerErr ∧
    (stream_aclose p cid now innerErr).1 = response_closed p cid now := by
  refine ⟨rfl, ?_, rfl, rfl⟩
  simp [stream_aclose, tryFinallyRun, List.count_cons]

/-- C9: the keep-alive scan is rate-limited.  Invoked at `now` with
`now < next_keepalive_check` the sweep is a no-op returning the pool
unchanged; otherwise the scan runs and first sets `next_keepalive_check` to
`now + 1.0`, so that any further sweep strictly within one second is a no-op:
the scan never executes twice within 1.0 second. -/
theorem keepalive_sweep_rate_limit (p : Pool) (now ke : ℚ)
    (h : p.keepaliveExpiry = some ke) :
    (now < p.nextKeepaliveCheck → keepalive_sweep p now = some p) ∧
    (¬ now < p.nextKeepaliveCheck →
      ∃ p1, keepalive_sweep p now = some p1 ∧
        p1.nextKeepaliveCheck = now + 1 ∧
        ∀ now2, now2 < now + 1 → keepalive_sweep p1 now2 = some p1) := by
  constructor
  · intro hlt
    unfold keepalive_sweep
    rw [h, if_pos hlt]
  · intro hge
    refine ⟨((get_all_connections p).filter (sweepExpired now)).foldl
        remove_from_pool { p with nextKeepaliveCheck := now + 1 }, ?_, ?_, ?_⟩
    · unfold keepalive_sweep
      rw [h, if_neg hge]
    · rw [foldl_remove_next]
    · intro now2 h2
      unfold keepalive_sweep
      rw [foldl_remove_ke]
      show (match ({ p with nextKeepaliveCheck := now + 1 } : Pool).keepaliveExpiry with
        | none => none
        | some _ => _) = _
      rw [show ({ p with nextKeepaliveCheck := now + 1 } : Pool).keepaliveExpiry = some ke from h]
      rw [if_pos (by rw [foldl_remove_next]; exact h2)]

theorem keepalive_sweep_rate_limit_witness : keepalive_sweep PW (-1) = some PW :=
  (keepalive_sweep_rate_limit PW (-1) 1 (by decide)).1 (by decide)

theorem setMem_filter_ne (s : List Conn) (cid : Nat) :
    setMem (s.filter (fun c => !decide (c.id = cid))) cid = false := by
  simp [setMem, List.any_eq_false, List.mem_filter]

theorem mapGet_not_key (m : List (Origin × List Conn)) (o : Origin)
    (h : o ∉ m.map Prod.fst) : mapGet m o = [] := by
  induction m with
  | nil => rfl
  | cons e rest ih =>
      simp only [List.map_cons, List.mem_cons, not_or] at h
      unfold mapGet
      rw [List.find?_cons]
      have hne : decide (e.1 = o) = false := by
        simp
        exact fun he => h.1 he.symm
      rw [hne]
      exact ih h.2

theorem setMem_mapGet_mapRemove (m : List (Origin × List Conn)) (o : Origin)
    (cid : Nat) (hk : KeysNodup m) :
    setMem (mapGet (mapRemove m o cid) o) cid = false := by
  induction m with
  | nil => rfl
  | cons e rest ih =>
      unfold KeysNodup at hk
      simp only [List.map_cons, List.nodup_cons] at hk
      unfold mapRemove
      by_cases heq : e.1 = o
      · rw [if_pos heq]
        by_cases hnil : e.2.filter (fun c => !decide (c.id = cid)) = []
        · rw [if_pos hnil]
          rw [mapGet_not_key rest o (heq ▸ hk.1)]
          rfl
        · rw [if_neg hnil]
          have : mapGet ((o, e.2.filter (fun c => !decide (c.id = cid))) :: rest) o =
              e.2.filter (fun c => !decide (c.id = cid)) := by
            unfold mapGet
            rw [List.find?_cons]
            simp
          rw [this]
          exact setMem_filter_ne e.2 cid
      · rw [if_neg heq]
        have : mapGet (e :: mapRemove rest o cid) o = mapGet (mapRemove rest o cid) o := by
          unfold mapGet
          rw [List.find?_cons]
          have hne : decide (e.1 = o) = false := by simp [heq]
          rw [hne]
        rw [this]
        exact ih hk.2

theorem semRelease_connections (p : Pool) :
    (semRelease p).connections = p.connections := by
  unfold semRelease; split <;> rfl

theorem remove_from_pool_noop (p : Pool) (c : Conn)
    (h : setMem (mapGet p.connections c.origin) c.id = false) :
    remove_from_pool p c = p := by
  unfold remove_from_pool
  rw [h]
  simp

theorem remove_from_pool_connections_of_mem (p : Pool) (c : Conn)
    (h : setMem (mapGet p.connections c.origin) c.id = true) :
    (remove_from_pool p c).connections = mapRemove p.connections c.origin c.id := by
  unfold remove_from_pool
  rw [h]
  simp [semRelease_connections]

/-- C8: `_remove_from_pool` is idempotent.  For every well-represented pool
state (`KeysNodup` is the uniqueness of Python dict keys, automatic in the
source) and every connection, removing twice yields the same pool state —
connections map and semaphore permit count — as removing once; and when the
connection is absent from `connections[connection.origin]`, the call changes
nothing at all (in particular it releases no permit). -/
theorem remove_from_pool_idem (p : Pool) (c : Conn) (hk : KeysNodup p.connections) :
    remove_from_pool (remove_from_pool p c) c = remove_from_pool p c ∧
    (setMem (mapGet p.connections c.origin) c.id = false →
      remove_from_pool p c = p) := by
  constructor
  · by_cases hmem : setMem (mapGet p.connections c.origin) c.id = true
    · apply remove_from_pool_noop
      rw [remove_from_pool_connections_of_mem p c hmem]
      exact setMem_mapGet_mapRemove p.connections c.origin c.id hk
    · have hm : setMem (mapGet p.connections c.origin) c.id = false := by
        simpa using hmem
      rw [remove_from_pool_noop p c hm, remove_from_pool_noop p c hm]
  · exact remove_from_pool_noop p c

theorem remove_from_pool_idem_witness :
    KeysNodup PW.connections ∧
      remove_from_pool (remove_from_pool PW CW1) CW1 = remove_from_pool PW CW1 :=
  ⟨by decide, (remove_from_pool_idem PW CW1 (by decide)).1⟩

theorem semAcquire_spec (p : Pool) (tmo : Option ℚ) :
    ((semAcquire p tmo).2 = AcquireOutcome.poolTimeout ↔
      ((∃ m, p.maxConnections = some m ∧ ¬ p.permitsUsed < m) ∧ tmo.isSome = true)) ∧
    ((semAcquire p tmo).2 ≠ AcquireOutcome.ok → (semAcquire p tmo).1 = p) ∧
    ((semAcquire p tmo).2 = AcquireOutcome.ok →
      (semAcquire p tmo).1.connections = p.connections) := by
  unfold semAcquire
  cases hmc : p.maxConnections with
  | none => simp
  | some m =>
      by_cases hlt : p.permitsUsed < m
      · simp [hlt]
      · cases htmo : tmo with
        | none => simp [hlt]
        | some tv =>
            simp [hlt]
            exact Nat.le_of_not_lt hlt

/-- C4: `_add_to_pool` first acquires an admission permit with the timeout
value at key `"pool"` of the timeout mapping, and fails with `PoolTimeout`
exactly when the semaphore is exhausted and that timeout is present (in the
sequential model a full semaphore cannot be refilled, so a finite timeout
elapses); on a `PoolTimeout` failure the whole pool — in particular the
connections map — is unchanged; the connection is inserted into
`connections[connection.origin]` (creating the set if absent) only on a
successful acquisition. -/
theorem add_to_pool_spec (p : Pool) (c : Conn) (t : TimeoutDict) :
    ((add_to_pool p c t).2 = AcquireOutcome.poolTimeout ↔
      ((∃ m, p.maxConnections = some m ∧ ¬ p.permitsUsed < m) ∧
        (timeoutGet t "pool").isSome = true)) ∧
    ((add_to_pool p c t).2 ≠ AcquireOutcome.ok → (add_to_pool p c t).1 = p) ∧
    ((add_to_pool p c t).2 = AcquireOutcome.ok →
      (add_to_pool p c t).1.connections = mapInsert p.connections c.origin c) := by
  have hs := semAcquire_spec p (timeoutGet t "pool")
  rcases hsa : semAcquire p (timeoutGet t "pool") with ⟨p1, out⟩
  rw [hsa] at hs
  cases out with
  | ok =>
      have hp1 : p1.connections = p.connections := hs.2.2 rfl
      refine ⟨?_, ?_, ?_⟩
      · rw [iff_iff_implies_and_implies]
        constructor
        · intro h; simp [add_to_pool, hsa] at h
        · intro h
          exact absurd (hs.1.mpr h) (by simp)
      · intro h; simp [add_to_pool, hsa] at h
      · intro _
        simp [add_to_pool, hsa, hp1]
  | poolTimeout =>
      have hp1 : p1 = p := hs.2.1 (by simp)
      refine ⟨?_, ?_, ?_⟩
      · simpa [add_to_pool, hsa] using hs.1
      · intro _; simp [add_to_pool, hsa, hp1]
      · intro h; simp [add_to_pool, hsa] at h
  | blocked =>
      have hp1 : p1 = p := hs.2.1 (by simp)
      refine ⟨?_, ?_, ?_⟩
      · constructor
        · intro h; simp [add_to_pool, hsa] at h
        · intro h
          exact absurd (hs.1.mpr h) (by simp)
      · intro _; simp [add_to_pool, hsa, hp1]
      · intro h; simp [add_to_pool, hsa] at h

theorem add_to_pool_spec_witness :
    (add_to_pool PW4 CW2 [("pool", some 1)]).2 ≠ AcquireOutcome.ok ∧
      (add_to_pool PW4 CW2 [("pool", some 1)]).1 = PW4 :=
  ⟨by decide, (add_to_pool_spec PW4 CW2 [("pool", some 1)]).2.1 (by decide)⟩

theorem scanStep_seen (acc : ScanAcc) (c : Conn) :
    (scanStep acc c).seen_http11 = (acc.seen_http11 || c.is_http11) := by
  unfold scanStep
  cases h11 : c.is_http11 <;> simp [h11] <;> split_ifs <;> simp

theorem scanStep_reuse (acc : ScanAcc) (c : Conn) :
    (scanStep acc c).reuse = if reuseCandB c = true then some c else acc.reuse := by
  unfold scanStep reuseCandB
  cases h11 : c.is_http11 <;> cases hst : c.state <;> cases hdr : c.dropped <;>
    cases h2 : c.is_http2 <;> simp [h11, hst, hdr, h2]

theorem scanStep_pending (acc : ScanAcc) (c : Conn) :
    (scanStep acc c).pending =
      if c.state = ConnectionState.PENDING then some c else acc.pending := by
  unfold scanStep
  cases h11 : c.is_http11 <;> cases hst : c.state <;> cases hdr : c.dropped <;>
    cases h2 : c.is_http2 <;> simp [h11, hst, hdr, h2]

theorem scan_seen_fold (cs : List Conn) (acc : ScanAcc) :
    (cs.foldl scanStep acc).seen_http11 =
      (acc.seen_http11 || cs.any (fun c => c.is_http11)) := by
  induction cs generalizing acc with
  | nil => simp
  | cons c cs ih => simp [List.foldl_cons, ih, scanStep_seen, Bool.or_assoc]

theorem scan_reuse_mono (cs : List Conn) (acc : ScanAcc)
    (h : acc.reuse.isSome = true) : ((cs.foldl scanStep acc).reuse).isSome = true := by
  induction cs generalizing acc with
  | nil => simpa using h
  | cons c cs ih =>
      apply ih
      rw [scanStep_reuse]
      split <;> simp [h]

theorem scan_reuse_isSome_of_mem (cs : List Conn) (acc : ScanAcc) (c : Conn)
    (hc : c ∈ cs) (hcand : reuseCandB c = true) :
    ((cs.foldl scanStep acc).reuse).isSome = true := by
  induction cs generalizing acc with
  | nil => cases hc
  | cons d cs ih =>
      rw [List.foldl_cons]
      rcases List.mem_cons.mp hc with h | h
      · subst h
        apply scan_reuse_mono
        rw [scanStep_reuse, if_pos hcand]
        rfl
      · exact ih (scanStep acc d) h

theorem scan_reuse_some (cs : List Conn) (acc : ScanAcc) (r : Conn)
    (h : (cs.foldl scanStep acc).reuse = some r) :
    acc.reuse = some r ∨ (r ∈ cs ∧ reuseCandB r = true) := by
  induction cs generalizing acc with
  | nil => exact Or.inl h
  | cons c cs ih =>
      rcases ih (scanStep acc c) h with h1 | h1
      · rw [scanStep_reuse] at h1
        by_cases hcand : reuseCandB c = true
        · rw [if_pos hcand] at h1
          injection h1 with h1
          subst h1
          exact Or.inr ⟨List.mem_cons_self c cs, hcand⟩
        · rw [if_neg hcand] at h1
          exact Or.inl h1
      · exact Or.inr ⟨List.mem_cons_of_mem _ h1.1, h1.2⟩

theorem scan_reuse_none (cs : List Conn) (acc : ScanAcc)
    (h : ∀ c ∈ cs, reuseCandB c = false) (ha : acc.reuse = none) :
    (cs.foldl scanStep acc).reuse = none := by
  induction cs generalizing acc with
  | nil => exact ha
  | cons c cs ih =>
      apply ih _ (fun d hd => h d (List.mem_cons_of_mem _ hd))
      rw [scanStep_reuse]
      simp [h c (List.mem_cons_self c cs), ha]

theorem scan_pending_mono (cs : List Conn) (acc : ScanAcc)
    (h : acc.pending.isSome = true) :
    ((cs.foldl scanStep acc).pending).isSome = true := by
  induction cs generalizing acc with
  | nil => simpa using h
  | cons c cs ih =>
      apply ih
      rw [scanStep_pending]
      split <;> simp [h]

theorem scan_pending_isSome_of_mem (cs : List Conn) (acc : ScanAcc) (c : Conn)
    (hc : c ∈ cs) (hp : c.state = ConnectionState.PENDING) :
    ((cs.foldl scanStep acc).pending).isSome = true := by
  induction cs generalizing acc with
  | nil => cases hc
  | cons d cs ih =>
      rw [List.foldl_cons]
      rcases List.mem_cons.mp hc with h | h
      · subst h
        apply scan_pending_mono
        rw [scanStep_pending, if_pos hp]
        rfl
      · exact ih (scanStep acc d) h

theorem scan_pending_some (cs : List Conn) (acc : ScanAcc) (q : Conn)
    (h : (cs.foldl scanStep acc).pending = some q) :
    acc.pending = some q ∨ (q ∈ cs ∧ q.state = ConnectionState.PENDING) := by
  induction cs generalizing acc with
  | nil => exact Or.inl h
  | cons c cs ih =>
      rcases ih (scanStep acc c) h with h1 | h1
      · rw [scanStep_pending] at h1
        by_cases hp : c.state = ConnectionState.PENDING
        · rw [if_pos hp] at h1
          injection h1 with h1
          subst h1
          exact Or.inr ⟨List.mem_cons_self c cs, hp⟩
        · rw [if_neg hp] at h1
          exact Or.inl h1
      · exact Or.inr ⟨List.mem_cons_of_mem _ h1.1, h1.2⟩

/-- C1: for every origin, `_get_connection_from_pool` returns a reuse
candidate (an `IDLE` non-dropped connection or an `ACTIVE` HTTP/2 connection,
`reuseCandB`) whenever one exists in the origin's set, and in that case the
returned connection has had `mark_as_ready()` called on it and its
`expires_at` set to absent (`readied`); when no reuse candidate exists, it
returns a `PENDING` connection if and only if HTTP/2 is enabled, some
`PENDING` connection exists for the origin, and no connection in the scanned
set has `is_http11` true; otherwise it returns nothing. -/
theorem get_connection_from_pool_spec (p : Pool) (o : Origin) :
    ((∃ c ∈ connections_for_origin p o, reuseCandB c = true) →
      ∃ r ∈ connections_for_origin p o, reuseCandB r = true ∧
        (get_connection_from_pool p o).2 = some (readied r)) ∧
    ((∀ c ∈ connections_for_origin p o, reuseCandB c = false) →
      ((p.http2 = true ∧
          (∃ c ∈ connections_for_origin p o, c.state = ConnectionState.PENDING) ∧
          (∀ c ∈ connections_for_origin p o, c.is_http11 = false)) →
        ∃ q ∈ connections_for_origin p o, q.state = ConnectionState.PENDING ∧
          (get_connection_from_pool p o).2 = some q) ∧
      (¬(p.http2 = true ∧
          (∃ c ∈ connections_for_origin p o, c.state = ConnectionState.PENDING) ∧
          (∀ c ∈ connections_for_origin p o, c.is_http11 = false)) →
        (get_connection_from_pool p o).2 = none)) := by
  constructor
  · rintro ⟨c, hc, hcand⟩
    have hsome : ((connScan (connections_for_origin p o)).reuse).isSome = true :=
      scan_reuse_isSome_of_mem _ _ c hc hcand
    obtain ⟨r, hr⟩ := Option.isSome_iff_exists.mp hsome
    rcases scan_reuse_some _ _ r hr with h0 | ⟨hmem, hcand2⟩
    · cases h0
    refine ⟨r, hmem, hcand2, ?_⟩
    simp only [get_connection_from_pool]
    rw [hr]
  · intro hnone
    have hrn : (connScan (connections_for_origin p o)).reuse = none :=
      scan_reuse_none _ _ hnone rfl
    constructor
    · rintro ⟨hh2, ⟨q0, hq0, hq0p⟩, h11⟩
      have hps : ((connScan (connections_for_origin p o)).pending).isSome = true :=
        scan_pending_isSome_of_mem _ _ q0 hq0 hq0p
      obtain ⟨q, hq⟩ := Option.isSome_iff_exists.mp hps
      rcases scan_pending_some _ _ q hq with h0 | ⟨hqmem, hqpend⟩
      · cases h0
      have hseen : (connScan (connections_for_origin p o)).seen_http11 = false := by
        unfold connScan
        rw [scan_seen_fold]
        simp only [Bool.false_or]
        rw [List.any_eq_false]
        intro x hx
        simp [h11 x hx]
      refine ⟨q, hqmem, hqpend, ?_⟩
      simp only [get_connection_from_pool]
      rw [hrn, hq]
      simp [hh2, hseen]
    · intro hneg
      cases hp : (connScan (connections_for_origin p o)).pending with
      | none =>
          simp only [get_connection_from_pool]
          rw [hrn, hp]
      | some q =>
          rcases scan_pending_some _ _ q hp with h0 | ⟨hqmem, hqpend⟩
          · cases h0
          by_cases hh2 : p.http2 = true
          · have hnall : ¬ (∀ c ∈ connections_for_origin p o, c.is_http11 = false) :=
              fun hall => hneg ⟨hh2, ⟨q, hqmem, hqpend⟩, hall⟩
            have hseen : (connScan (connections_for_origin p o)).seen_http11 = true := by
              unfold connScan
              rw [scan_seen_fold]
              simp only [Bool.false_or]
              rw [List.any_eq_true]
              push_neg at hnall
              obtain ⟨x, hx, hx11⟩ := hnall
              exact ⟨x, hx, by simpa using hx11⟩
            simp only [get_connection_from_pool]
            rw [hrn, hp]
            simp [hseen]
          · have hh2f : p.http2 = false := by simpa using hh2
            simp only [get_connection_from_pool]
            rw [hrn, hp]
            simp [hh2f]

theorem get_connection_from_pool_spec_witness :
    ∃ r ∈ connections_for_origin PW OW, reuseCandB r = true ∧
      (get_connection_from_pool PW OW).2 = some (readied r) :=
  (get_connection_from_pool_spec PW OW).1 (by decide)

theorem get_all_connections_def (p : Pool) :
    get_all_connections p = joinConns p.connections := rfl

theorem joinConns_cons (e : Origin × List Conn) (rest : List (Origin × List Conn)) :
    joinConns (e :: rest) = e.2 ++ joinConns rest := by
  simp [joinConns]

theorem mem_joinConns (x : Conn) (m : List (Origin × List Conn)) :
    x ∈ joinConns m ↔ ∃ e ∈ m, x ∈ e.2 := by
  unfold joinConns
  rw [List.mem_flatten]
  constructor
  · rintro ⟨l, hl, hx⟩
    obtain ⟨e, he, rfl⟩ := List.mem_map.mp hl
    exact ⟨e, he, hx⟩
  · rintro ⟨e, he, hx⟩
    exact ⟨e.2, List.mem_map_of_mem Prod.snd he, hx⟩

theorem mapGet_keysNodup (m : List (Origin × List Conn)) (e : Origin × List Conn)
    (hk : KeysNodup m) (he : e ∈ m) : mapGet m e.1 = e.2 := by
  induction m with
  | nil => cases he
  | cons d rest ih =>
      simp only [KeysNodup, List.map_cons, List.nodup_cons] at hk
      rcases List.mem_cons.mp he with h | h
      · subst h
        unfold mapGet
        rw [List.find?_cons]
        simp
      · have hne : ¬ d.1 = e.1 := fun hq => hk.1 (hq ▸ List.mem_map_of_mem Prod.fst h)
        unfold mapGet
        rw [List.find?_cons]
        have hd : decide (d.1 = e.1) = false := by simp [hne]
        rw [hd]
        exact ih hk.2 h

theorem joinConns_mapRemove (m : List (Origin × List Conn)) (o : Origin) (cid : Nat)
    (hk : KeysNodup m) (hc : OriginsConsistent m) :
    joinConns (mapRemove m o cid) =
      (joinConns m).filter
        (fun x => !(decide (x.origin = o) && decide (x.id = cid))) := by
  induction m with
  | nil => rfl
  | cons e rest ih =>
      have hcrest : OriginsConsistent rest := fun e' he' => hc e' (List.mem_cons_of_mem _ he')
      simp only [KeysNodup, List.map_cons, List.nodup_cons] at hk
      unfold mapRemove
      by_cases heq : e.1 = o
      · rw [if_pos heq]
        have hfe : e.2.filter (fun c => !decide (c.id = cid)) =
            e.2.filter (fun x => !(decide (x.origin = o) && decide (x.id = cid))) := by
          apply List.filter_congr
          intro x hx
          have hxo : x.origin = o := (hc e (List.mem_cons_self e rest) x hx).trans heq
          simp [hxo]
        have hrid : (joinConns rest).filter
            (fun x => !(decide (x.origin = o) && decide (x.id = cid))) = joinConns rest := by
          rw [List.filter_eq_self]
          intro x hxx
          obtain ⟨e', he', hxe'⟩ := (mem_joinConns x rest).mp hxx
          have hxo : x.origin = e'.1 := hcrest e' he' x hxe'
          have hne : ¬ e'.1 = o := fun hco =>
            hk.1 (heq ▸ hco ▸ List.mem_map_of_mem Prod.fst he')
          simp [hxo, hne]
        by_cases hnil : e.2.filter (fun c => !decide (c.id = cid)) = []
        · rw [if_pos hnil]
          rw [joinConns_cons, List.filter_append, ← hfe, hnil, hrid]
          rfl
        · rw [if_neg hnil]
          rw [joinConns_cons, joinConns_cons, List.filter_append, ← hfe, hrid]
      · rw [if_neg heq]
        rw [joinConns_cons, joinConns_cons, List.filter_append, ih hk.2 hcrest]
        have hfe : e.2.filter (fun x => !(decide (x.origin = o) && decide (x.id = cid))) = e.2 := by
          rw [List.filter_eq_self]
          intro x hx
          have hxo : x.origin = e.1 := hc e (List.mem_cons_self e rest) x hx
          simp [hxo, heq]
        rw [hfe]

theorem get_all_remove_filter (p : Pool) (c : Conn)
    (hk : KeysNodup p.connections) (hc : OriginsConsistent p.connections) :
    get_all_connections (remove_from_pool p c) =
      (get_all_connections p).filter
        (fun x => !(decide (x.origin = c.origin) && decide (x.id = c.id))) := by
  by_cases hmem : setMem (mapGet p.connections c.origin) c.id = true
  · rw [get_all_connections_def, remove_from_pool_connections_of_mem p c hmem,
      joinConns_mapRemove p.connections c.origin c.id hk hc]
    rfl
  · rw [remove_from_pool_noop p c (by simpa using hmem)]
    symm
    rw [List.filter_eq_self]
    intro x hx
    obtain ⟨e, he, hxe⟩ := (mem_joinConns x p.connections).mp hx
    by_cases hxo : x.origin = c.origin
    · have he1 : e.1 = c.origin := (hc e he x hxe).symm.trans hxo
      have hget : mapGet p.connections e.1 = e.2 := mapGet_keysNodup p.connections e hk he
      have hsm : setMem (mapGet p.connections c.origin) c.id = false := by
        simpa using hmem
      rw [he1] at hget
      rw [hget] at hsm
      have hxid : ¬ x.id = c.id := by
        intro hid
        have : setMem e.2 c.id = true := by
          unfold setMem
          rw [List.any_eq_true]
          exact ⟨x, hxe, by simp [hid]⟩
        rw [this] at hsm
        cases hsm
      simp [hxid]
    · simp [hxo]

theorem keys_mapRemove_sublist (m : List (Origin × List Conn)) (o : Origin) (cid : Nat) :
    ((mapRemove m o cid).map Prod.fst).Sublist (m.map Prod.fst) := by
  induction m with
  | nil => exact List.Sublist.refl _
  | cons e rest ih =>
      unfold mapRemove
      by_cases heq : e.1 = o
      · rw [if_pos heq]
        by_cases hnil : e.2.filter (fun c => !decide (c.id = cid)) = []
        · rw [if_pos hnil]
          simp only [List.map_cons]
          exact List.sublist_cons_self _ _
        · rw [if_neg hnil]
          simp only [List.map_cons]
          rw [heq]
      · rw [if_neg heq]
        simp only [List.map_cons]
        exact ih.cons₂ e.1

theorem keysNodup_mapRemove (m : List (Origin × List Conn)) (o : Origin) (cid : Nat)
    (hk : KeysNodup m) : KeysNodup (mapRemove m o cid) :=
  List.Nodup.sublist (keys_mapRemove_sublist m o cid) hk

theorem originsConsistent_mapRemove (m : List (Origin × List Conn)) (o : Origin)
    (cid : Nat) (hc : OriginsConsistent m) : OriginsConsistent (mapRemove m o cid) := by
  induction m with
  | nil => intro e he; cases he
  | cons e rest ih =>
      have hcrest : OriginsConsistent rest := fun e' he' => hc e' (List.mem_cons_of_mem _ he')
      unfold mapRemove
      by_cases heq : e.1 = o
      · rw [if_pos heq]
        by_cases hnil : e.2.filter (fun c => !decide (c.id = cid)) = []
        · rw [if_pos hnil]
          exact hcrest
        · rw [if_neg hnil]
          intro e' he' x hx
          rcases List.mem_cons.mp he' with h | h
          · subst h
            exact (hc e (List.mem_cons_self e rest) x (List.mem_of_mem_filter hx)).trans heq
          · exact hcrest e' h x hx
      · rw [if_neg heq]
        intro e' he' x hx
        rcases List.mem_cons.mp he' with h | h
        · rw [h] at hx ⊢
          exact hc e (List.mem_cons_self e rest) x hx
        · exact ih hcrest e' h x hx

theorem poolWF_remove (p : Pool) (c : Conn) (h : PoolWF p) :
    PoolWF (remove_from_pool p c) := by
  obtain ⟨hk, hc, hi⟩ := h
  by_cases hmem : setMem (mapGet p.connections c.origin) c.id = true
  · refine ⟨?_, ?_, ?_⟩
    · rw [remove_from_pool_connections_of_mem p c hmem]
      exact keysNodup_mapRemove p.connections c.origin c.id hk
    · rw [remove_from_pool_connections_of_mem p c hmem]
      exact originsConsistent_mapRemove p.connections c.origin c.id hc
    · rw [get_all_remove_filter p c hk hc]
      exact List.Nodup.sublist
        (List.Sublist.map Conn.id (List.filter_sublist _)) hi
  · rw [remove_from_pool_noop p c (by simpa using hmem)]
    exact ⟨hk, hc, hi⟩

theorem poolWF_foldRemove (cs : List Conn) (p : Pool) (h : PoolWF p) :
    PoolWF (cs.foldl remove_from_pool p) := by
  induction cs generalizing p with
  | nil => exact h
  | cons c cs ih =>
      rw [List.foldl_cons]
      exact ih (remove_from_pool p c) (poolWF_remove p c h)

theorem get_all_foldRemove (cs : List Conn) (p : Pool) (h : PoolWF p) :
    get_all_connections (cs.foldl remove_from_pool p) =
      (get_all_connections p).filter
        (fun x => cs.all (fun c => !(decide (x.origin = c.origin) && decide (x.id = c.id)))) := by
  induction cs generalizing p with
  | nil => simp
  | cons c cs ih =>
      rw [List.foldl_cons, ih (remove_from_pool p c) (poolWF_remove p c h),
        get_all_remove_filter p c h.1 h.2.1, List.filter_filter]
      apply List.filter_congr
      intro x hx
      simp [List.all_cons, Bool.and_comm]

/-- C5 (amended): when `keepalive_expiry` is configured and the sweep's scan
actually runs at time `now` (not the rate-limit no-op), it removes from the
pool exactly those connections whose state is `IDLE`, whose `expires_at` is
set, and for which `now > expires_at` (`sweepExpired`); afterwards every
`IDLE` connection remaining in the pool either has no `expires_at` or has
`expires_at ≥ now` (`idleFreshWeak`) — not `> now` as the claim states, since
a connection with `expires_at = now` is kept.  `PoolWF` is the representation
invariant (unique dict keys, own-origin storage, distinct identities). -/
theorem keepalive_sweep_spec (p p1 : Pool) (now ke : ℚ) (hwf : PoolWF p)
    (hke : p.keepaliveExpiry = some ke) (hrate : ¬ now < p.nextKeepaliveCheck)
    (hrun : keepalive_sweep p now = some p1) :
    (∀ x, x ∈ get_all_connections p1 ↔
      x ∈ get_all_connections p ∧ sweepExpired now x = false) ∧
    (∀ x ∈ get_all_connections p1, x.state = ConnectionState.IDLE →
      idleFreshWeak now x = true) := by
  have hp1 : p1 = ((get_all_connections p).filter (sweepExpired now)).foldl
      remove_from_pool { p with nextKeepaliveCheck := now + 1 } := by
    unfold keepalive_sweep at hrun
    split at hrun
    · cases hrun
    · rw [if_neg hrate] at hrun
      simpa using hrun.symm
  have hwf1 : PoolWF ({ p with nextKeepaliveCheck := now + 1 }) := hwf
  have hfe := get_all_foldRemove ((get_all_connections p).filter (sweepExpired now))
    { p with nextKeepaliveCheck := now + 1 } hwf1
  have hsame : get_all_connections ({ p with nextKeepaliveCheck := now + 1 }) =
      get_all_connections p := rfl
  rw [hsame] at hfe
  have hiff : ∀ x, x ∈ get_all_connections p1 ↔
      x ∈ get_all_connections p ∧ sweepExpired now x = false := by
    intro x
    rw [hp1, hfe]
    constructor
    · intro hx
      have hx1 := List.mem_filter.mp hx
      refine ⟨hx1.1, ?_⟩
      by_contra hne
      have hex : sweepExpired now x = true := by simpa using hne
      have hmemex : x ∈ (get_all_connections p).filter (sweepExpired now) :=
        List.mem_filter.mpr ⟨hx1.1, hex⟩
      have := (List.all_eq_true.mp hx1.2) x hmemex
      simp at this
    · rintro ⟨hx, hnex⟩
      apply List.mem_filter.mpr
      refine ⟨hx, ?_⟩
      rw [List.all_eq_true]
      intro c hcmem
      have hcex := (List.mem_filter.mp hcmem).2
      have hcall := (List.mem_filter.mp hcmem).1
      by_cases hid : x.id = c.id
      · have hxeq : x = c := List.inj_on_of_nodup_map hwf.2.2 hx hcall hid
        rw [← hxeq] at hcex
        rw [hcex] at hnex
        cases hnex
      · simp [hid]
  refine ⟨hiff, ?_⟩
  intro x hx hidle
  have hne := ((hiff x).mp hx).2
  unfold sweepExpired at hne
  unfold idleFreshWeak
  cases hea : x.expires_at with
  | none => rfl
  | some e =>
      rw [hea, hidle] at hne
      simp at hne
      simp [hne]

theorem keepalive_sweep_spec_witness :
    (∀ x, x ∈ get_all_connections ((keepalive_sweep PW 5).get (by decide)) ↔
      x ∈ get_all_connections PW ∧ sweepExpired 5 x = false) ∧
    (∀ x ∈ get_all_connections ((keepalive_sweep PW 5).get (by decide)),
      x.state = ConnectionState.IDLE → idleFreshWeak 5 x = true) :=
  keepalive_sweep_spec PW ((keepalive_sweep PW 5).get (by decide)) 5 1
    (by decide) (by decide) (by decide) (Option.some_get (by decide)).symm

/-- C5 counterexample: at the boundary `expires_at = now` the sweep keeps the
connection, so "afterwards every `IDLE` connection remaining in the pool
either has no `expires_at` or has `expires_at > now`" is false: `PW5` holds
the `IDLE` connection `CW5` with `expires_at = 5`; the sweep at `now = 5`
runs its scan (`next_keepalive_check = 4 ≤ 5`), does not remove `CW5`
(`5 > 5` fails), and `CW5` remains `IDLE` with `expires_at = 5`, which is not
absent and not `> 5`. -/
theorem keepalive_sweep_strict_counterexample :
    PW5.keepaliveExpiry = some 1 ∧ ¬ (5 : ℚ) < PW5.nextKeepaliveCheck ∧
    (keepalive_sweep PW5 5).isSome = true ∧
    ∃ x ∈ get_all_connections ((keepalive_sweep PW5 5).getD PW5),
      x.state = ConnectionState.IDLE ∧ idleFreshStrict 5 x = false := by
  decide

theorem mapGet_cons_eq (o : Origin) (s : List Conn) (rest : List (Origin × List Conn)) :
    mapGet ((o, s) :: rest) o = s := by
  unfold mapGet
  rw [List.find?_cons]
  simp

theorem remove_noop_key_absent (p : Pool) (c : Conn)
    (h : c.origin ∉ p.connections.map Prod.fst) : remove_from_pool p c = p :=
  remove_from_pool_noop p c (by rw [mapGet_not_key _ _ h]; rfl)

theorem fold_remove_noop_key_absent (cs : List Conn) (p : Pool) (o : Origin)
    (hcs : ∀ c ∈ cs, c.origin = o) (h : o ∉ p.connections.map Prod.fst) :
    cs.foldl remove_from_pool p = p := by
  induction cs with
  | nil => rfl
  | cons c cs ih =>
      rw [List.foldl_cons,
        remove_noop_key_absent p c (by rw [hcs c (List.mem_cons_self c cs)]; exact h)]
      exact ih (fun d hd => hcs d (List.mem_cons_of_mem _ hd))

theorem fold_remove_head (cs : List Conn) :
    ∀ (p : Pool) (o : Origin) (cs0 : List Conn) (rest : List (Origin × List Conn)),
      p.connections = (o, cs0) :: rest →
      (∀ c ∈ cs, c.origin = o) →
      (∀ c ∈ cs0, c.id ∈ cs.map Conn.id) →
      o ∉ rest.map Prod.fst →
      cs0 ≠ [] →
      (cs.foldl remove_from_pool p).connections = rest := by
  induction cs with
  | nil =>
      intro p o cs0 rest hconn hall hids hkey hne
      cases cs0 with
      | nil => exact absurd rfl hne
      | cons c0 cs0 => exact absurd (hids c0 (List.mem_cons_self _ _)) (by simp)
  | cons c cs ih =>
      intro p o cs0 rest hconn hall hids hkey hne
      rw [List.foldl_cons]
      have hco : c.origin = o := hall c (List.mem_cons_self c cs)
      have hget : mapGet p.connections c.origin = cs0 := by
        rw [hconn, hco]
        exact mapGet_cons_eq o cs0 rest
      by_cases hmem : setMem cs0 c.id = true
      · have hconn2 : (remove_from_pool p c).connections =
            mapRemove p.connections c.origin c.id :=
          remove_from_pool_connections_of_mem p c (by rw [hget]; exact hmem)
        rw [hconn, hco] at hconn2
        have hmr : mapRemove ((o, cs0) :: rest) o c.id =
            (if cs0.filter (fun d => !decide (d.id = c.id)) = [] then rest
             else (o, cs0.filter (fun d => !decide (d.id = c.id))) :: rest) := by
          unfold mapRemove
          rw [if_pos rfl]
        by_cases hnil : cs0.filter (fun d => !decide (d.id = c.id)) = []
        · rw [hmr, if_pos hnil] at hconn2
          have hrest := fold_remove_noop_key_absent cs (remove_from_pool p c) o
            (fun d hd => hall d (List.mem_cons_of_mem _ hd))
            (by rw [hconn2]; exact hkey)
          rw [hrest, hconn2]
        · rw [hmr, if_neg hnil] at hconn2
          refine ih (remove_from_pool p c) o _ rest hconn2
            (fun d hd => hall d (List.mem_cons_of_mem _ hd)) ?_ hkey hnil
          intro d hd
          have hdm := List.mem_of_mem_filter hd
          have hneq : ¬ d.id = c.id := by
            have := (List.mem_filter.mp hd).2
            simpa using this
          have hin := hids d hdm
          rw [List.map_cons, List.mem_cons] at hin
          rcases hin with h | h
          · exact absurd h hneq
          · exact h
      · have hno : remove_from_pool p c = p :=
          remove_from_pool_noop p c (by rw [hget]; simpa using hmem)
        rw [hno]
        refine ih p o cs0 rest hconn
          (fun d hd => hall d (List.mem_cons_of_mem _ hd)) ?_ hkey hne
        intro d hd
        have hin := hids d hd
        rw [List.map_cons, List.mem_cons] at hin
        rcases hin with h | h
        · exfalso
          apply hmem
          unfold setMem
          rw [List.any_eq_true]
          exact ⟨d, hd, by simp [h]⟩
        · exact h

theorem fold_remove_entries (entries : List (Origin × List Conn)) :
    ∀ (p : Pool), p.connections = entries →
      KeysNodup entries → OriginsConsistent entries → (∀ e ∈ entries, e.2 ≠ []) →
      ((joinConns entries).foldl remove_from_pool p).connections = [] := by
  induction entries with
  | nil =>
      intro p hconn _ _ _
      exact hconn
  | cons e rest ih =>
      intro p hconn hk hc hne
      simp only [KeysNodup, List.map_cons, List.nodup_cons] at hk
      rw [joinConns_cons, List.foldl_append]
      have h1 : (e.2.foldl remove_from_pool p).connections = rest := by
        apply fold_remove_head e.2 p e.1 e.2 rest
        · rw [hconn]
        · intro x hx
          exact hc e (List.mem_cons_self _ _) x hx
        · intro x hx
          exact List.mem_map_of_mem Conn.id hx
        · exact hk.1
        · exact hne e (List.mem_cons_self _ _)
      exact ih (e.2.foldl remove_from_pool p) h1 hk.2
        (fun e' he' => hc e' (List.mem_cons_of_mem _ he'))
        (fun e' he' => hne e' (List.mem_cons_of_mem _ he'))

/-- C7: after `aclose()` returns, the pool's connections map is empty (no
origin maps to any connection), and the call trace splits into all the
`_remove_from_pool` events followed by all the `connection.aclose()` events,
so every connection that was in the pool at the start has been removed from
the pool before its `aclose()` is called.  The hypotheses are the
representation invariants of a Python pool: unique dict keys, storage under
the connection's own origin, and no origin mapping to an empty set. -/
theorem pool_aclose_spec (p : Pool) (hk : KeysNodup p.connections)
    (hc : OriginsConsistent p.connections) (hne : ∀ e ∈ p.connections, e.2 ≠ []) :
    (pool_aclose p).1.connections = [] ∧
    ∃ rs cls, (pool_aclose p).2 = rs ++ cls ∧
      (∀ ev ∈ rs, ∃ cid, ev = CloseEv.removed cid) ∧
      (∀ ev ∈ cls, ∃ cid, ev = CloseEv.closed cid) ∧
      (∀ c ∈ get_all_connections p,
        CloseEv.removed c.id ∈ rs ∧ CloseEv.closed c.id ∈ cls) := by
  constructor
  · exact fold_remove_entries p.connections p rfl hk hc hne
  · refine ⟨(get_all_connections p).map (fun (c : Conn) => CloseEv.removed c.id),
      (get_all_connections p).map (fun (c : Conn) => CloseEv.closed c.id), rfl, ?_, ?_, ?_⟩
    · intro ev hev
      obtain ⟨c, _, rfl⟩ := List.mem_map.mp hev
      exact ⟨c.id, rfl⟩
    · intro ev hev
      obtain ⟨c, _, rfl⟩ := List.mem_map.mp hev
      exact ⟨c.id, rfl⟩
    · intro c hcm
      exact ⟨List.mem_map_of_mem _ hcm, List.mem_map_of_mem _ hcm⟩

theorem pool_aclose_spec_witness : (pool_aclose PW7).1.connections = [] :=
  (pool_aclose_spec PW7 (by decide) (by decide) (by decide)).1

/-- C3: in `request`'s retry loop, once the get-or-create section has selected
connection `c` (pool state `p1`), the `try/except` behaves as follows.  If
`connection.request` fails with `NewConnectionRequired`, the error is caught
and never surfaced: the iteration result is `retry` — consumed by
`requestLoop` by restarting with no connection selected (third conjunct) —
and the pool carried out of the handler is exactly the pool at raise time
(the selection-phase pool with only the connection's own mutation applied):
the handler itself changes nothing.  If `connection.request` fails with any
other error `e`, the connection is removed via `_remove_from_pool` and the
same error `e` propagates unchanged. -/
theorem request_error_handling (p : Pool) (o : Origin) (newId : Nat)
    (t : TimeoutDict) (out : Conn → ReqOutcome × Conn) (p1 : Pool) (c : Conn)
    (hsel : selectPhase p o newId t = SelResult.conn p1 c) :
    ((out c).1 = ReqOutcome.newConnectionRequired →
      requestIter p o newId t out =
        IterResult.retry
          ({ p1 with connections := updateConn p1.connections c.id (applyMut c (out c).2) })) ∧
    (∀ e, (out c).1 = ReqOutcome.failure e →
      requestIter p o newId t out =
        IterResult.failed
          (remove_from_pool
            ({ p1 with connections := updateConn p1.connections c.id (applyMut c (out c).2) })
            (applyMut c (out c).2)) e) ∧
    (∀ (ids : Nat → Nat) (outs : Nat → Conn → ReqOutcome × Conn) (fuel i : Nat)
        (q q1 : Pool),
      requestIter q o (ids i) t (outs i) = IterResult.retry q1 →
      requestLoop o t ids outs (fuel + 1) i q = requestLoop o t ids outs fuel (i + 1) q1) := by
  refine ⟨?_, ?_, ?_⟩
  · intro h
    unfold requestIter
    rw [hsel]
    simp only [dispatch]
    rw [h]
  · intro e h
    unfold requestIter
    rw [hsel]
    simp only [dispatch]
    rw [h]
  · intro ids outs fuel i q q1 h
    conv_lhs => rw [requestLoop]
    rw [h]

theorem request_error_handling_witness :
    (OutW (newConnection OW 9)).1 = ReqOutcome.newConnectionRequired ∧
    requestIter PW3 OW 9 [] OutW =
      IterResult.retry
        ({ (⟨[(OW, [newConnection OW 9])], 0, none, none, none, false, 0⟩ : Pool) with
            connections :=
              updateConn
                (⟨[(OW, [newConnection OW 9])], 0, none, none, none, false, 0⟩ : Pool).connections
                (newConnection OW 9).id
                (applyMut (newConnection OW 9) (OutW (newConnection OW 9)).2) }) :=
  ⟨by decide,
    (request_error_handling PW3 OW 9 [] OutW
      ⟨[(OW, [newConnection OW 9])], 0, none, none, none, false, 0⟩
      (newConnection OW 9) (by decide)).1 (by decide)⟩

theorem semAcquire_connections (p : Pool) (tmo : Option ℚ) :
    (semAcquire p tmo).1.connections = p.connections := by
  unfold semAcquire
  split
  · rfl
  · split
    · rfl
    · split <;> rfl

theorem semRelease_permits_some (p : Pool) (m : Nat) (h : p.maxConnections = some m) :
    (semRelease p).permitsUsed = p.permitsUsed - 1 := by
  unfold semRelease
  rw [h]

theorem remove_from_pool_permits_of_mem (p : Pool) (c : Conn)
    (h : setMem (mapGet p.connections c.origin) c.id = true) :
    (remove_from_pool p c).permitsUsed = (semRelease p).permitsUsed := by
  unfold remove_from_pool
  rw [h]
  simp

theorem joinConns_mapRemove_length_lt (m : List (Origin × List Conn)) (o : Origin)
    (cid : Nat) (h : setMem (mapGet m o) cid = true) :
    (joinConns (mapRemove m o cid)).length < (joinConns m).length := by
  induction m with
  | nil => simp [mapGet, setMem] at h
  | cons e rest ih =>
      unfold mapRemove
      by_cases heq : e.1 = o
      · rw [if_pos heq]
        have hget : mapGet (e :: rest) o = e.2 := by
          unfold mapGet
          rw [List.find?_cons]
          simp [heq]
        rw [hget] at h
        have hflt : (e.2.filter (fun c => !decide (c.id = cid))).length < e.2.length := by
          rw [List.length_filter_lt_length_iff_exists]
          unfold setMem at h
          rw [List.any_eq_true] at h
          obtain ⟨x, hx, hxid⟩ := h
          exact ⟨x, hx, by simpa using hxid⟩
        by_cases hnil : e.2.filter (fun c => !decide (c.id = cid)) = []
        · rw [if_pos hnil]
          rw [hnil] at hflt
          rw [joinConns_cons]
          simp only [List.length_append, List.length_nil] at hflt ⊢
          omega
        · rw [if_neg hnil]
          rw [joinConns_cons, joinConns_cons]
          simp only [List.length_append]
          omega
      · rw [if_neg heq]
        have hget : mapGet (e :: rest) o = mapGet rest o := by
          unfold mapGet
          rw [List.find?_cons]
          simp [heq]
        rw [hget] at h
        rw [joinConns_cons, joinConns_cons]
        simp only [List.length_append]
        have := ih h
        omega

theorem joinConns_mapInsert_length_le (m : List (Origin × List Conn)) (o : Origin)
    (c : Conn) :
    (joinConns (mapInsert m o c)).length ≤ (joinConns m).length + 1 := by
  induction m with
  | nil => simp [mapInsert, joinConns]
  | cons e rest ih =>
      unfold mapInsert
      by_cases heq : e.1 = o
      · rw [if_pos heq]
        rw [joinConns_cons, joinConns_cons]
        simp only [List.length_append]
        have hsa : (setAdd e.2 c).length ≤ e.2.length + 1 := by
          unfold setAdd
          split
          · exact Nat.le_succ _
          · simp
        omega
      · rw [if_neg heq]
        rw [joinConns_cons, joinConns_cons]
        simp only [List.length_append]
        omega

theorem joinConns_updateConn_length (m : List (Origin × List Conn)) (cid : Nat)
    (c2 : Conn) :
    (joinConns (updateConn m cid c2)).length = (joinConns m).length := by
  unfold updateConn joinConns
  simp only [List.length_flatten, List.map_map]
  congr 1
  apply List.map_congr_left
  intro e _
  simp [Function.comp]

theorem boundInv_remove (m : Nat) (p : Pool) (c : Conn) (h : BoundInv m p) :
    BoundInv m (remove_from_pool p c) := by
  obtain ⟨hmc, hcp, hpm⟩ := h
  by_cases hmem : setMem (mapGet p.connections c.origin) c.id = true
  · have hperm : (remove_from_pool p c).permitsUsed = p.permitsUsed - 1 := by
      rw [remove_from_pool_permits_of_mem p c hmem, semRelease_permits_some p m hmc]
    have hcount : countAll (remove_from_pool p c) =
        (joinConns (mapRemove p.connections c.origin c.id)).length := by
      unfold countAll
      rw [get_all_connections_def, remove_from_pool_connections_of_mem p c hmem]
    have hlt := joinConns_mapRemove_length_lt p.connections c.origin c.id hmem
    unfold countAll at hcp
    rw [get_all_connections_def] at hcp
    refine ⟨?_, ?_, ?_⟩
    · rw [remove_from_pool_maxC]; exact hmc
    · rw [hcount, hperm]; omega
    · rw [hperm]; omega
  · rw [remove_from_pool_noop p c (by simpa using hmem)]
    exact ⟨hmc, hcp, hpm⟩

theorem boundInv_foldRemove (m : Nat) (cs : List Conn) (p : Pool) (h : BoundInv m p) :
    BoundInv m (cs.foldl remove_from_pool p) := by
  induction cs generalizing p with
  | nil => exact h
  | cons c cs ih =>
      rw [List.foldl_cons]
      exact ih (remove_from_pool p c) (boundInv_remove m p c h)

theorem boundInv_updateConn (m : Nat) (p : Pool) (cid : Nat) (c2 : Conn)
    (h : BoundInv m p) :
    BoundInv m { p with connections := updateConn p.connections cid c2 } := by
  obtain ⟨a, b, c⟩ := h
  refine ⟨a, ?_, c⟩
  show (joinConns (updateConn p.connections cid c2)).length ≤ p.permitsUsed
  rw [joinConns_updateConn_length]
  exact b

theorem semAcquire_ok_bound (p : Pool) (tmo : Option ℚ) (m : Nat)
    (hmc : p.maxConnections = some m) (hok : (semAcquire p tmo).2 = AcquireOutcome.ok) :
    (semAcquire p tmo).1.permitsUsed = p.permitsUsed + 1 ∧ p.permitsUsed < m ∧
      (semAcquire p tmo).1.maxConnections = some m := by
  simp only [semAcquire, hmc] at hok ⊢
  by_cases hlt : p.permitsUsed < m
  · simp [hlt, hmc]
  · exfalso
    cases htmo : tmo with
    | none => rw [if_neg hlt, htmo] at hok; cases hok
    | some tv => rw [if_neg hlt, htmo] at hok; cases hok

theorem boundInv_add (m : Nat) (p : Pool) (c : Conn) (t : TimeoutDict)
    (h : BoundInv m p) :
    BoundInv m (add_to_pool p c t).1 := by
  obtain ⟨hmc, hcp, hpm⟩ := h
  have hs := semAcquire_spec p (timeoutGet t "pool")
  rcases hsa : semAcquire p (timeoutGet t "pool") with ⟨p1, out⟩
  rw [hsa] at hs
  unfold add_to_pool
  rw [hsa]
  cases out with
  | ok =>
      have hb := semAcquire_ok_bound p (timeoutGet t "pool") m hmc (by rw [hsa])
      rw [hsa] at hb
      have hp1c : p1.connections = p.connections := by
        have := semAcquire_connections p (timeoutGet t "pool")
        rw [hsa] at this
        exact this
      refine ⟨?_, ?_, ?_⟩
      · exact hb.2.2
      · show (joinConns (mapInsert p1.connections c.origin c)).length ≤ p1.permitsUsed
        rw [hp1c, hb.1]
        have := joinConns_mapInsert_length_le p.connections c.origin c
        unfold countAll at hcp
        rw [get_all_connections_def] at hcp
        omega
      · rw [hb.1]
        omega
  | poolTimeout =>
      have : p1 = p := hs.2.1 (by simp)
      rw [this]
      exact ⟨hmc, hcp, hpm⟩
  | blocked =>
      have : p1 = p := hs.2.1 (by simp)
      rw [this]
      exact ⟨hmc, hcp, hpm⟩

theorem getFrom_fst_cases (p : Pool) (o : Origin) :
    (get_connection_from_pool p o).1 =
      (match (connScan (connections_for_origin p o)).reuse with
       | some r =>
           { ((connScan (connections_for_origin p o)).toClose).foldl remove_from_pool p with
               connections :=
                 updateConn
                   (((connScan (connections_for_origin p o)).toClose).foldl
                     remove_from_pool p).connections r.id (readied r) }
       | none => ((connScan (connections_for_origin p o)).toClose).foldl remove_from_pool p) := by
  simp only [get_connection_from_pool]
  cases (connScan (connections_for_origin p o)).reuse with
  | some r => rfl
  | none =>
      cases (connScan (connections_for_origin p o)).pending with
      | some q =>
          show (if (p.http2 && !(connScan (connections_for_origin p o)).seen_http11) = true
              then (((connScan (connections_for_origin p o)).toClose).foldl remove_from_pool p,
                some q)
              else (((connScan (connections_for_origin p o)).toClose).foldl remove_from_pool p,
                (none : Option Conn))).1 =
            ((connScan (connections_for_origin p o)).toClose).foldl remove_from_pool p
          by_cases hc : (p.http2 && !(connScan (connections_for_origin p o)).seen_http11) = true
          · rw [if_pos hc]
          · rw [if_neg hc]
      | none => rfl

theorem boundInv_getFrom (m : Nat) (p : Pool) (o : Origin) (h : BoundInv m p) :
    BoundInv m (get_connection_from_pool p o).1 := by
  have h1 : BoundInv m
      (((connScan (connections_for_origin p o)).toClose).foldl remove_from_pool p) :=
    boundInv_foldRemove m _ p h
  rw [getFrom_fst_cases]
  cases (connScan (connections_for_origin p o)).reuse with
  | some r => exact boundInv_updateConn m _ r.id (readied r) h1
  | none => exact h1

theorem boundInv_stampExpiry (m : Nat) (p : Pool) (cid : Nat) (c : Conn) (e : ℚ)
    (h : BoundInv m p) : BoundInv m (stampExpiry p cid c e) :=
  boundInv_updateConn m p cid _ h

theorem boundInv_respClosed (m : Nat) (p : Pool) (cid : Nat) (now : ℚ)
    (h : BoundInv m p) : BoundInv m (response_closed p cid now) := by
  unfold response_closed
  split
  · exact h
  · split
    · exact boundInv_remove m p _ h
    · split
      · split
        · split
          · exact boundInv_remove m p _ h
          · split
            · exact boundInv_stampExpiry m p cid _ _ h
            · exact h
        · split
          · exact boundInv_stampExpiry m p cid _ _ h
          · exact h
      · exact h

theorem boundInv_next (m : Nat) (p : Pool) (v : ℚ) (h : BoundInv m p) :
    BoundInv m { p with nextKeepaliveCheck := v } := h

theorem boundInv_sweepOp (m : Nat) (p : Pool) (now : ℚ) (h : BoundInv m p) :
    BoundInv m ((keepalive_sweep p now).getD p) := by
  unfold keepalive_sweep
  cases hke : p.keepaliveExpiry with
  | none => exact h
  | some ke =>
      by_cases hr : now < p.nextKeepaliveCheck
      · rw [if_pos hr]
        exact h
      · rw [if_neg hr]
        exact boundInv_foldRemove m _ _ (boundInv_next m p (now + 1) h)

theorem boundInv_closeAll (m : Nat) (p : Pool) (h : BoundInv m p) :
    BoundInv m (pool_aclose p).1 :=
  boundInv_foldRemove m (get_all_connections p) p h

theorem boundInv_dispatch (m : Nat) (p : Pool) (c : Conn)
    (out : Conn → ReqOutcome × Conn) (h : BoundInv m p) :
    BoundInv m (dispatch p c out).pool := by
  simp only [dispatch]
  cases ho : (out c).1 with
  | success => exact boundInv_updateConn m p c.id _ h
  | newConnectionRequired => exact boundInv_updateConn m p c.id _ h
  | failure e =>
      exact boundInv_remove m _ _ (boundInv_updateConn m p c.id _ h)

theorem boundInv_selectPhase_conn (m : Nat) (p : Pool) (o : Origin) (nid : Nat)
    (t : TimeoutDict) (q : Pool) (c : Conn) (h : BoundInv m p)
    (hs : selectPhase p o nid t = SelResult.conn q c) : BoundInv m q := by
  unfold selectPhase at hs
  cases h2 : (get_connection_from_pool p o).2 with
  | some c1 =>
      rw [h2] at hs
      injection hs with ha hb
      rw [← ha]
      exact boundInv_getFrom m p o h
  | none =>
      rw [h2] at hs
      cases h3 : (add_to_pool (get_connection_from_pool p o).1 (newConnection o nid) t).2 with
      | ok =>
          rw [h3] at hs
          injection hs with ha hb
          rw [← ha]
          exact boundInv_add m _ _ t (boundInv_getFrom m p o h)
      | poolTimeout => rw [h3] at hs; simp at hs
      | blocked => rw [h3] at hs; simp at hs

theorem boundInv_selectPhase_timeout (m : Nat) (p : Pool) (o : Origin) (nid : Nat)
    (t : TimeoutDict) (q : Pool) (h : BoundInv m p)
    (hs : selectPhase p o nid t = SelResult.timeout q) : BoundInv m q := by
  unfold selectPhase at hs
  cases h2 : (get_connection_from_pool p o).2 with
  | some c1 => rw [h2] at hs; simp at hs
  | none =>
      rw [h2] at hs
      cases h3 : (add_to_pool (get_connection_from_pool p o).1 (newConnection o nid) t).2 with
      | ok => rw [h3] at hs; simp at hs
      | poolTimeout =>
          rw [h3] at hs
          injection hs with ha
          rw [← ha]
          exact boundInv_add m _ _ t (boundInv_getFrom m p o h)
      | blocked => rw [h3] at hs; simp at hs

theorem boundInv_selectPhase_blocked (m : Nat) (p : Pool) (o : Origin) (nid : Nat)
    (t : TimeoutDict) (q : Pool) (h : BoundInv m p)
    (hs : selectPhase p o nid t = SelResult.blockedS q) : BoundInv m q := by
  unfold selectPhase at hs
  cases h2 : (get_connection_from_pool p o).2 with
  | some c1 => rw [h2] at hs; simp at hs
  | none =>
      rw [h2] at hs
      cases h3 : (add_to_pool (get_connection_from_pool p o).1 (newConnection o nid) t).2 with
      | ok => rw [h3] at hs; simp at hs
      | poolTimeout => rw [h3] at hs; simp at hs
      | blocked =>
          rw [h3] at hs
          injection hs with ha
          rw [← ha]
          exact boundInv_add m _ _ t (boundInv_getFrom m p o h)

theorem boundInv_requestIter (m : Nat) (p : Pool) (o : Origin) (nid : Nat)
    (t : TimeoutDict) (out : Conn → ReqOutcome × Conn) (h : BoundInv m p) :
    BoundInv m (requestIter p o nid t out).pool := by
  unfold requestIter
  cases hs : selectPhase p o nid t with
  | conn q c =>
      exact boundInv_dispatch m q c out (boundInv_selectPhase_conn m p o nid t q c h hs)
  | timeout q => exact boundInv_selectPhase_timeout m p o nid t q h hs
  | blockedS q => exact boundInv_selectPhase_blocked m p o nid t q h hs

theorem boundInv_requestLoop (m : Nat) (o : Origin) (t : TimeoutDict)
    (ids : Nat → Nat) (outs : Nat → Conn → ReqOutcome × Conn) :
    ∀ (fuel i : Nat) (p : Pool), BoundInv m p →
      BoundInv m (requestLoop o t ids outs fuel i p).pool := by
  intro fuel
  induction fuel with
  | zero => intro i p h; exact h
  | succ fuel ih =>
      intro i p h
      rw [requestLoop]
      have hri := boundInv_requestIter m p o (ids i) t (outs i) h
      cases hr : requestIter p o (ids i) t (outs i) with
      | success p1 c => rw [hr] at hri; exact hri
      | retry p1 =>
          rw [hr] at hri
          exact ih (i + 1) p1 hri
      | poolTimeout p1 => rw [hr] at hri; exact hri
      | blockedR p1 => rw [hr] at hri; exact hri
      | failed p1 e => rw [hr] at hri; exact hri
      | exhausted p1 => rw [hr] at hri; exact hri

theorem boundInv_request_op (m : Nat) (p : Pool) (o : Origin) (t : TimeoutDict)
    (ids : Nat → Nat) (outs : Nat → Conn → ReqOutcome × Conn) (fuel : Nat)
    (now : ℚ) (h : BoundInv m p) :
    BoundInv m (request_op p o t ids outs fuel now).pool := by
  unfold request_op
  cases hke : p.keepaliveExpiry with
  | none => exact boundInv_requestLoop m o t ids outs fuel 0 p h
  | some ke =>
      cases hs : keepalive_sweep p now with
      | none => exact boundInv_requestLoop m o t ids outs fuel 0 p h
      | some p1 =>
          apply boundInv_requestLoop
          have := boundInv_sweepOp m p now h
          rw [hs] at this
          exact this

theorem boundInv_applyOp (m : Nat) (p : Pool) (op : PoolOp) (h : BoundInv m p) :
    BoundInv m (applyOp p op) := by
  cases op with
  | add c t => exact boundInv_add m p c t h
  | remove c => exact boundInv_remove m p c h
  | getFrom o => exact boundInv_getFrom m p o h
  | respClosed cid now => exact boundInv_respClosed m p cid now h
  | sweep now => exact boundInv_sweepOp m p now h
  | closeAll => exact boundInv_closeAll m p h
  | connEvent cid mc =>
      show BoundInv m (match findConn p cid with
        | some c => { p with connections := updateConn p.connections cid (applyMut c mc) }
        | none => p)
      cases findConn p cid with
      | some c => exact boundInv_updateConn m p cid _ h
      | none => exact h
  | req o t ids outs fuel now => exact boundInv_request_op m p o t ids outs fuel now h

theorem runOps_boundInv (m : Nat) (ops : List PoolOp) :
    ∀ p : Pool, BoundInv m p → BoundInv m (runOps p ops) := by
  induction ops with
  | nil => intro p h; exact h
  | cons op ops ih => intro p h; exact ih (applyOp p op) (boundInv_applyOp m p op h)

/-- C2: when `max_connections = m` is set, every pool state reachable from a
fresh pool by any sequence of pool operations (`request`, `_add_to_pool`,
`_remove_from_pool`, `_get_connection_from_pool`, `_response_closed`,
`_keepalive_sweep`, `aclose`, and connection-internal state changes) holds at
most `m` connections across all origins. -/
theorem max_connections_bound (m : Nat) (mk : Option Nat) (ke : Option ℚ)
    (h2 : Bool) (p : Pool)
    (hreach : Reachable (initPool (some m) mk ke h2) p) : countAll p ≤ m := by
  obtain ⟨ops, hops⟩ := hreach
  have hinit : BoundInv m (initPool (some m) mk ke h2) :=
    ⟨rfl, Nat.le_refl 0, Nat.zero_le m⟩
  have hfin := runOps_boundInv m ops (initPool (some m) mk ke h2) hinit
  rw [hops] at hfin
  exact hfin.2.1.trans hfin.2.2

theorem max_connections_bound_witness :
    countAll (runOps (initPool (some 1) none none false)
      [PoolOp.add CW1 [], PoolOp.add CW2 []]) ≤ 1 :=
  max_connections_bound 1 none none false _ ⟨_, rfl⟩

theorem ne_mapInsert (m : List (Origin × List Conn)) (o : Origin) (c : Conn)
    (h : ∀ e ∈ m, e.2 ≠ []) : ∀ e ∈ mapInsert m o c, e.2 ≠ [] := by
  induction m with
  | nil =>
      intro e he
      unfold mapInsert at he
      rcases List.mem_cons.mp he with h1 | h1
      · rw [h1]; simp
      · cases h1
  | cons d rest ih =>
      intro e he
      unfold mapInsert at he
      by_cases heq : d.1 = o
      · rw [if_pos heq] at he
        rcases List.mem_cons.mp he with h1 | h1
        · rw [h1]
          show setAdd d.2 c ≠ []
          unfold setAdd
          split
          · exact h d (List.mem_cons_self d rest)
          · simp
        · exact h e (List.mem_cons_of_mem _ h1)
      · rw [if_neg heq] at he
        rcases List.mem_cons.mp he with h1 | h1
        · rw [h1]; exact h d (List.mem_cons_self d rest)
        · exact ih (fun e' he' => h e' (List.mem_cons_of_mem _ he')) e h1

theorem ne_mapRemove (m : List (Origin × List Conn)) (o : Origin) (cid : Nat)
    (h : ∀ e ∈ m, e.2 ≠ []) : ∀ e ∈ mapRemove m o cid, e.2 ≠ [] := by
  induction m with
  | nil => intro e he; cases he
  | cons d rest ih =>
      intro e he
      unfold mapRemove at he
      by_cases heq : d.1 = o
      · rw [if_pos heq] at he
        by_cases hnil : d.2.filter (fun x => !decide (x.id = cid)) = []
        · rw [if_pos hnil] at he
          exact h e (List.mem_cons_of_mem _ he)
        · rw [if_neg hnil] at he
          rcases List.mem_cons.mp he with h1 | h1
          · rw [h1]; exact hnil
          · exact h e (List.mem_cons_of_mem _ h1)
      · rw [if_neg heq] at he
        rcases List.mem_cons.mp he with h1 | h1
        · rw [h1]; exact h d (List.mem_cons_self d rest)
        · exact ih (fun e' he' => h e' (List.mem_cons_of_mem _ he')) e h1

theorem ne_updateConn (m : List (Origin × List Conn)) (cid : Nat) (c2 : Conn)
    (h : ∀ e ∈ m, e.2 ≠ []) : ∀ e ∈ updateConn m cid c2, e.2 ≠ [] := by
  intro e he
  unfold updateConn at he
  obtain ⟨e0, he0, rfl⟩ := List.mem_map.mp he
  simpa using h e0 he0

theorem neInv_remove (p : Pool) (c : Conn) (h : NonEmptyInv p) :
    NonEmptyInv (remove_from_pool p c) := by
  by_cases hmem : setMem (mapGet p.connections c.origin) c.id = true
  · intro e he
    rw [remove_from_pool_connections_of_mem p c hmem] at he
    exact ne_mapRemove p.connections c.origin c.id h e he
  · rw [remove_from_pool_noop p c (by simpa using hmem)]
    exact h

theorem neInv_foldRemove (cs : List Conn) (p : Pool) (h : NonEmptyInv p) :
    NonEmptyInv (cs.foldl remove_from_pool p) := by
  induction cs generalizing p with
  | nil => exact h
  | cons c cs ih =>
      rw [List.foldl_cons]
      exact ih (remove_from_pool p c) (neInv_remove p c h)

theorem neInv_updateConn (p : Pool) (cid : Nat) (c2 : Conn) (h : NonEmptyInv p) :
    NonEmptyInv { p with connections := updateConn p.connections cid c2 } := by
  intro e he
  exact ne_updateConn p.connections cid c2 h e he

theorem neInv_add (p : Pool) (c : Conn) (t : TimeoutDict) (h : NonEmptyInv p) :
    NonEmptyInv (add_to_pool p c t).1 := by
  have hs := semAcquire_spec p (timeoutGet t "pool")
  have hsc := semAcquire_connections p (timeoutGet t "pool")
  rcases hsa : semAcquire p (timeoutGet t "pool") with ⟨p1, out⟩
  rw [hsa] at hs hsc
  unfold add_to_pool
  rw [hsa]
  cases out with
  | ok =>
      intro e he
      show e.2 ≠ []
      have : e ∈ mapInsert p1.connections c.origin c := he
      rw [hsc] at this
      exact ne_mapInsert p.connections c.origin c h e this
  | poolTimeout =>
      have hp : p1 = p := hs.2.1 (by simp)
      rw [hp]
      exact h
  | blocked =>
      have hp : p1 = p := hs.2.1 (by simp)
      rw [hp]
      exact h

theorem neInv_getFrom (p : Pool) (o : Origin) (h : NonEmptyInv p) :
    NonEmptyInv (get_connection_from_pool p o).1 := by
  have h1 : NonEmptyInv
      (((connScan (connections_for_origin p o)).toClose).foldl remove_from_pool p) :=
    neInv_foldRemove _ p h
  rw [getFrom_fst_cases]
  cases (connScan (connections_for_origin p o)).reuse with
  | some r => exact neInv_updateConn _ r.id (readied r) h1
  | none => exact h1

theorem neInv_stampExpiry (p : Pool) (cid : Nat) (c : Conn) (e : ℚ)
    (h : NonEmptyInv p) : NonEmptyInv (stampExpiry p cid c e) :=
  neInv_updateConn p cid _ h

theorem neInv_respClosed (p : Pool) (cid : Nat) (now : ℚ) (h : NonEmptyInv p) :
    NonEmptyInv (response_closed p cid now) := by
  unfold response_closed
  split
  · exact h
  · split
    · exact neInv_remove p _ h
    · split
      · split
        · split
          · exact neInv_remove p _ h
          · split
            · exact neInv_stampExpiry p cid _ _ h
            · exact h
        · split
          · exact neInv_stampExpiry p cid _ _ h
          · exact h
      · exact h

theorem neInv_next (p : Pool) (v : ℚ) (h : NonEmptyInv p) :
    NonEmptyInv { p with nextKeepaliveCheck := v } := h

theorem neInv_sweepOp (p : Pool) (now : ℚ) (h : NonEmptyInv p) :
    NonEmptyInv ((keepalive_sweep p now).getD p) := by
  unfold keepalive_sweep
  cases hke : p.keepaliveExpiry with
  | none => exact h
  | some ke =>
      by_cases hr : now < p.nextKeepaliveCheck
      · rw [if_pos hr]
        exact h
      · rw [if_neg hr]
        exact neInv_foldRemove _ _ (neInv_next p (now + 1) h)

theorem neInv_closeAll (p : Pool) (h : NonEmptyInv p) :
    NonEmptyInv (pool_aclose p).1 :=
  neInv_foldRemove (get_all_connections p) p h

theorem neInv_dispatch (p : Pool) (c : Conn) (out : Conn → ReqOutcome × Conn)
    (h : NonEmptyInv p) : NonEmptyInv (dispatch p c out).pool := by
  simp only [dispatch]
  cases ho : (out c).1 with
  | success => exact neInv_updateConn p c.id _ h
  | newConnectionRequired => exact neInv_updateConn p c.id _ h
  | failure e => exact neInv_remove _ _ (neInv_updateConn p c.id _ h)

theorem neInv_selectPhase_conn (p : Pool) (o : Origin) (nid : Nat)
    (t : TimeoutDict) (q : Pool) (c : Conn) (h : NonEmptyInv p)
    (hs : selectPhase p o nid t = SelResult.conn q c) : NonEmptyInv q := by
  unfold selectPhase at hs
  cases h2 : (get_connection_from_pool p o).2 with
  | some c1 =>
      rw [h2] at hs
      injection hs with ha hb
      rw [← ha]
      exact neInv_getFrom p o h
  | none =>
      rw [h2] at hs
      cases h3 : (add_to_pool (get_connection_from_pool p o).1 (newConnection o nid) t).2 with
      | ok =>
          rw [h3] at hs
          injection hs with ha hb
          rw [← ha]
          exact neInv_add _ _ t (neInv_getFrom p o h)
      | poolTimeout => rw [h3] at hs; simp at hs
      | blocked => rw [h3] at hs; simp at hs

theorem neInv_selectPhase_timeout (p : Pool) (o : Origin) (nid : Nat)
    (t : TimeoutDict) (q : Pool) (h : NonEmptyInv p)
    (hs : selectPhase p o nid t = SelResult.timeout q) : NonEmptyInv q := by
  unfold selectPhase at hs
  cases h2 : (get_connection_from_pool p o).2 with
  | some c1 => rw [h2] at hs; simp at hs
  | none =>
      rw [h2] at hs
      cases h3 : (add_to_pool (get_connection_from_pool p o).1 (newConnection o nid) t).2 with
      | ok => rw [h3] at hs; simp at hs
      | poolTimeout =>
          rw [h3] at hs
          injection hs with ha
          rw [← ha]
          exact neInv_add _ _ t (neInv_getFrom p o h)
      | blocked => rw [h3] at hs; simp at hs

theorem neInv_selectPhase_blocked (p : Pool) (o : Origin) (nid : Nat)
    (t : TimeoutDict) (q : Pool) (h : NonEmptyInv p)
    (hs : selectPhase p o nid t = SelResult.blockedS q) : NonEmptyInv q := by
  unfold selectPhase at hs
  cases h2 : (get_connection_from_pool p o).2 with
  | some c1 => rw [h2] at hs; simp at hs
  | none =>
      rw [h2] at hs
      cases h3 : (add_to_pool (get_connection_from_pool p o).1 (newConnection o nid) t).2 with
      | ok => rw [h3] at hs; simp at hs
      | poolTimeout => rw [h3] at hs; simp at hs
      | blocked =>
          rw [h3] at hs
          injection hs with ha
          rw [← ha]
          exact neInv_add _ _ t (neInv_getFrom p o h)

theorem neInv_requestIter (p : Pool) (o : Origin) (nid : Nat) (t : TimeoutDict)
    (out : Conn → ReqOutcome × Conn) (h : NonEmptyInv p) :
    NonEmptyInv (requestIter p o nid t out).pool := by
  unfold requestIter
  cases hs : selectPhase p o nid t with
  | conn q c => exact neInv_dispatch q c out (neInv_selectPhase_conn p o nid t q c h hs)
  | timeout q => exact neInv_selectPhase_timeout p o nid t q h hs
  | blockedS q => exact neInv_selectPhase_blocked p o nid t q h hs

theorem neInv_requestLoop (o : Origin) (t : TimeoutDict) (ids : Nat → Nat)
    (outs : Nat → Conn → ReqOutcome × Conn) :
    ∀ (fuel i : Nat) (p : Pool), NonEmptyInv p →
      NonEmptyInv (requestLoop o t ids outs fuel i p).pool := by
  intro fuel
  induction fuel with
  | zero => intro i p h; exact h
  | succ fuel ih =>
      intro i p h
      rw [requestLoop]
      have hri := neInv_requestIter p o (ids i) t (outs i) h
      cases hr : requestIter p o (ids i) t (outs i) with
      | success p1 c => rw [hr] at hri; exact hri
      | retry p1 =>
          rw [hr] at hri
          exact ih (i + 1) p1 hri
      | poolTimeout p1 => rw [hr] at hri; exact hri
      | blockedR p1 => rw [hr] at hri; exact hri
      | failed p1 e => rw [hr] at hri; exact hri
      | exhausted p1 => rw [hr] at hri; exact hri

theorem neInv_request_op (p : Pool) (o : Origin) (t : TimeoutDict)
    (ids : Nat → Nat) (outs : Nat → Conn → ReqOutcome × Conn) (fuel : Nat)
    (now : ℚ) (h : NonEmptyInv p) :
    NonEmptyInv (request_op p o t ids outs fuel now).pool := by
  unfold request_op
  cases hke : p.keepaliveExpiry with
  | none => exact neInv_requestLoop o t ids outs fuel 0 p h
  | some ke =>
      cases hs : keepalive_sweep p now with
      | none => exact neInv_requestLoop o t ids outs fuel 0 p h
      | some p1 =>
          apply neInv_requestLoop
          have := neInv_sweepOp p now h
          rw [hs] at this
          exact this

theorem neInv_applyOp (p : Pool) (op : PoolOp) (h : NonEmptyInv p) :
    NonEmptyInv (applyOp p op) := by
  cases op with
  | add c t => exact neInv_add p c t h
  | remove c => exact neInv_remove p c h
  | getFrom o => exact neInv_getFrom p o h
  | respClosed cid now => exact neInv_respClosed p cid now h
  | sweep now => exact neInv_sweepOp p now h
  | closeAll => exact neInv_closeAll p h
  | connEvent cid mc =>
      show NonEmptyInv (match findConn p cid with
        | some c => { p with connections := updateConn p.connections cid (applyMut c mc) }
        | none => p)
      cases findConn p cid with
      | some c => exact neInv_updateConn p cid _ h
      | none => exact h
  | req o t ids outs fuel now => exact neInv_request_op p o t ids outs fuel now h

theorem runOps_neInv (ops : List PoolOp) :
    ∀ p : Pool, NonEmptyInv p → NonEmptyInv (runOps p ops) := by
  induction ops with
  | nil => intro p h; exact h
  | cons op ops ih => intro p h; exact ih (applyOp p op) (neInv_applyOp p op h)

/-- C10: in every pool state reachable from a fresh pool by any sequence of
pool operations, every origin key present in the connections map maps to a
non-empty set of connections: `_add_to_pool` only creates a set when
simultaneously inserting into it, and `_remove_from_pool` deletes the origin
key whenever removal leaves its set empty. -/
theorem origin_sets_nonempty (mc mk : Option Nat) (ke : Option ℚ) (h2 : Bool)
    (p : Pool) (hreach : Reachable (initPool mc mk ke h2) p) :
    ∀ e ∈ p.connections, e.2 ≠ [] := by
  obtain ⟨ops, hops⟩ := hreach
  have hinit : NonEmptyInv (initPool mc mk ke h2) := by
    intro e he
    cases he
  have hfin := runOps_neInv ops (initPool mc mk ke h2) hinit
  rw [hops] at hfin
  exact hfin

theorem origin_sets_nonempty_witness :
    0 < ((OW, [CW2]) : Origin × List Conn).2.length :=
  List.length_pos.mpr
    (origin_sets_nonempty none none none false
      (runOps (initPool none none none false)
        [PoolOp.add CW1 [], PoolOp.remove CW1, PoolOp.add CW2 []])
      ⟨_, rfl⟩ (OW, [CW2]) (by decide))
